import Mathlib

/-!
Verification of the Newclid (yuclid) AR core against its specification.

This file shallowly embeds the algebraic-reasoning (AR) machinery of the
yuclid solver: sparse sorted linear combinations (src/ar/linear_combination.cpp),
equations (src/ar/equation.cpp), the incremental row-echelon linear system
(src/ar/linear_system.cpp), reduced equations (src/ar/reduced_equation.cpp),
the angle carrier AddCircle (src/numbers/add_circle.cpp), together with the
solver-level components referenced by the claims: theorem applications
(src/solver/theorem_application.cpp), the ratio and squared-dist processing
loops and the driver (src/solver/ddar_solver.cpp), statement normalization
(src/statement/ratio_dist.cpp, src/statement/cong.cpp) and the matcher
bucketing loop (src/matcher.cpp).

Machine rationals (boost::rational over safe int64) are modelled as Lean
rationals; the source treats overflow as fatal, so arithmetic coincides on
every run that completes.  C++ while-loops become fuel-indexed recursion;
every theorem about a loop is stated for an arbitrary fuel value, hence in
particular for the fuel that the real (terminating) execution uses.
-/

namespace Yuclid

/-! ## Linear combinations (src/ar/linear_combination.cpp)

A linear combination is stored as a vector of (variable, coefficient)
pairs, sorted by variable; zero coefficients are never stored.  We keep the
raw list as the carrier and state sortedness / nonzeroness as predicates,
exactly as the C++ class maintains them implicitly. -/

variable {V : Type} [LinearOrder V]

/-- The inner walk of LinearCombination::merge_terms while the right head
stays below the fixed left head (v, c₁): emit transformed right terms, and
hand the rest back to the outer walk (mergeRest merges the left tail with
a remaining right vector).  The single C++ loop is split into this inner
walk and the outer one so that both recursions are structural; the emitted
terms are identical. -/
def mergeInner (opL opR : ℚ → ℚ) (binop : ℚ → ℚ → ℚ) (v : V) (c₁ : ℚ)
    (mergeRest : List (V × ℚ) → List (V × ℚ)) : List (V × ℚ) → List (V × ℚ)
  | [] => (v, opL c₁) :: mergeRest []
  | (w, c₂) :: r =>
    if v < w then
      (v, opL c₁) :: mergeRest ((w, c₂) :: r)
    else if w < v then
      (w, opR c₂) :: mergeInner opL opR binop v c₁ mergeRest r
    else
      (if binop c₁ c₂ = 0 then [] else [(v, binop c₁ c₂)]) ++ mergeRest r

/-- One merge pass over two term vectors, from
LinearCombination::merge_terms: walk both sorted vectors, apply op_left to
unmatched left terms, op_right to unmatched right terms, binop to matched
pairs, dropping a combined coefficient that is zero. -/
def mergeTerms (opL opR : ℚ → ℚ) (binop : ℚ → ℚ → ℚ) :
    List (V × ℚ) → List (V × ℚ) → List (V × ℚ)
  | [], r => r.map fun t => (t.1, opR t.2)
  | (v, c₁) :: l, r => mergeInner opL opR binop v c₁ (mergeTerms opL opR binop l) r

theorem mergeTerms_nil_nil (opL opR : ℚ → ℚ) (binop : ℚ → ℚ → ℚ) :
    mergeTerms opL opR binop ([] : List (V × ℚ)) [] = [] := rfl

theorem mergeTerms_nil_cons (opL opR : ℚ → ℚ) (binop : ℚ → ℚ → ℚ)
    (w : V) (c : ℚ) (r : List (V × ℚ)) :
    mergeTerms opL opR binop [] ((w, c) :: r) =
      (w, opR c) :: mergeTerms opL opR binop [] r := rfl

theorem mergeTerms_cons_nil (opL opR : ℚ → ℚ) (binop : ℚ → ℚ → ℚ)
    (v : V) (c : ℚ) (l : List (V × ℚ)) :
    mergeTerms opL opR binop ((v, c) :: l) [] =
      (v, opL c) :: mergeTerms opL opR binop l [] := rfl

theorem mergeTerms_cons_cons (opL opR : ℚ → ℚ) (binop : ℚ → ℚ → ℚ)
    (v : V) (c₁ : ℚ) (l : List (V × ℚ)) (w : V) (c₂ : ℚ) (r : List (V × ℚ)) :
    mergeTerms opL opR binop ((v, c₁) :: l) ((w, c₂) :: r) =
      if v < w then
        (v, opL c₁) :: mergeTerms opL opR binop l ((w, c₂) :: r)
      else if w < v then
        (w, opR c₂) :: mergeTerms opL opR binop ((v, c₁) :: l) r
      else
        (if binop c₁ c₂ = 0 then [] else [(v, binop c₁ c₂)]) ++
          mergeTerms opL opR binop l r := rfl

/-- LinearCombination::operator+ : merge with identity on both sides and
coefficient addition on matches. -/
def lcAdd (l r : List (V × ℚ)) : List (V × ℚ) :=
  mergeTerms id id (· + ·) l r

/-- LinearCombination::operator- (binary): merge with identity on the left,
negation on the right, subtraction on matches. -/
def lcSub (l r : List (V × ℚ)) : List (V × ℚ) :=
  mergeTerms id Neg.neg (· - ·) l r

/-- LinearCombination::operator* by a rational: an empty combination if the
multiplier is zero, otherwise multiply every stored coefficient. -/
def lcSmul (c : ℚ) (l : List (V × ℚ)) : List (V × ℚ) :=
  if c = 0 then [] else l.map fun t => (t.1, t.2 * c)

/-- LinearCombination::operator- (unary): negate every coefficient. -/
def lcNeg (l : List (V × ℚ)) : List (V × ℚ) :=
  l.map fun t => (t.1, -t.2)

/-- The single-term constructor LinearCombination(var, coeff): empty when
the coefficient is zero. -/
def lcSingle (v : V) (c : ℚ) : List (V × ℚ) :=
  if c = 0 then [] else [(v, c)]

/-- LinearCombination::common_denominator: fold of lcm over the coefficient
denominators, starting from 1. -/
def commonDenominator (l : List (V × ℚ)) : ℕ :=
  l.foldl (fun r t => Nat.lcm r t.2.den) 1

/-- The (mathematical) coefficient of a variable in a raw term list: the sum
of the stored coefficients at that variable.  On canonical (sorted,
zero-free) lists this is the stored coefficient or zero. -/
def coeffOf (l : List (V × ℚ)) (x : V) : ℚ :=
  (l.map fun t => if t.1 = x then t.2 else 0).sum

/-- Terms are strictly sorted by variable, the invariant of the C++ sparse
vector. -/
def LCSorted (l : List (V × ℚ)) : Prop :=
  l.Pairwise fun a b => a.1 < b.1

/-- No stored coefficient is zero, the other invariant of the C++ sparse
vector. -/
def LCNZ (l : List (V × ℚ)) : Prop :=
  ∀ t ∈ l, t.2 ≠ 0

@[simp] theorem coeffOf_nil (x : V) : coeffOf ([] : List (V × ℚ)) x = 0 := rfl

@[simp] theorem coeffOf_cons (t : V × ℚ) (l : List (V × ℚ)) (x : V) :
    coeffOf (t :: l) x = (if t.1 = x then t.2 else 0) + coeffOf l x := by
  simp [coeffOf]

theorem coeffOf_cons_self (v : V) (c : ℚ) (l : List (V × ℚ)) :
    coeffOf ((v, c) :: l) v = c + coeffOf l v := by
  rw [coeffOf_cons]
  simp

theorem coeffOf_cons_ne (v : V) (c : ℚ) (l : List (V × ℚ)) {x : V} (h : v ≠ x) :
    coeffOf ((v, c) :: l) x = coeffOf l x := by
  rw [coeffOf_cons]
  simp [h]

theorem coeffOf_append (l r : List (V × ℚ)) (x : V) :
    coeffOf (l ++ r) x = coeffOf l x + coeffOf r x := by
  simp [coeffOf]

/-- Evaluation of a merge: mergeTerms acts on per-variable coefficients by
op_left and op_right, provided both are additive and binop is their sum. -/
theorem coeffOf_mergeTerms (opL opR : ℚ → ℚ) (binop : ℚ → ℚ → ℚ)
    (hL : ∀ a b, opL (a + b) = opL a + opL b) (hL0 : opL 0 = 0)
    (hR : ∀ a b, opR (a + b) = opR a + opR b) (hR0 : opR 0 = 0)
    (hb : ∀ a b, binop a b = opL a + opR b) :
    ∀ (l r : List (V × ℚ)) (x : V),
      coeffOf (mergeTerms opL opR binop l r) x = opL (coeffOf l x) + opR (coeffOf r x)
  | [], [], x => by simp [mergeTerms, hL0, hR0]
  | [], (w, c) :: r, x => by
    rw [mergeTerms_nil_cons]
    have ih := coeffOf_mergeTerms opL opR binop hL hL0 hR hR0 hb [] r x
    rcases eq_or_ne w x with h | h
    · subst h
      rw [coeffOf_cons_self, coeffOf_cons_self, ih, hR]
      simp [hL0]
    · rw [coeffOf_cons_ne _ _ _ h, coeffOf_cons_ne _ _ _ h, ih]
  | (v, c) :: l, [], x => by
    rw [mergeTerms_cons_nil]
    have ih := coeffOf_mergeTerms opL opR binop hL hL0 hR hR0 hb l [] x
    rcases eq_or_ne v x with h | h
    · subst h
      rw [coeffOf_cons_self, coeffOf_cons_self, ih, hL]
      simp [hR0]
    · rw [coeffOf_cons_ne _ _ _ h, coeffOf_cons_ne _ _ _ h, ih]
  | (v, c₁) :: l, (w, c₂) :: r, x => by
    rw [mergeTerms_cons_cons]
    rcases lt_trichotomy v w with hvw | hvw | hvw
    · rw [if_pos hvw]
      have ih := coeffOf_mergeTerms opL opR binop hL hL0 hR hR0 hb l ((w, c₂) :: r) x
      rcases eq_or_ne v x with h | h
      · subst h
        rw [coeffOf_cons_self, coeffOf_cons_self, ih, hL]
        ring
      · rw [coeffOf_cons_ne _ _ _ h, coeffOf_cons_ne _ _ _ h, ih]
    · subst hvw
      rw [if_neg (lt_irrefl v), if_neg (lt_irrefl v)]
      have ih := coeffOf_mergeTerms opL opR binop hL hL0 hR hR0 hb l r x
      have hbv := hb c₁ c₂
      rcases eq_or_ne v x with h | h
      · subst h
        by_cases hz : binop c₁ c₂ = 0
        · rw [if_pos hz, List.nil_append, ih, coeffOf_cons_self, coeffOf_cons_self, hL, hR]
          rw [hbv] at hz
          linarith
        · rw [if_neg hz, List.cons_append, List.nil_append, coeffOf_cons_self, ih, hbv,
            coeffOf_cons_self, coeffOf_cons_self, hL, hR]
          ring
      · by_cases hz : binop c₁ c₂ = 0
        · rw [if_pos hz, List.nil_append, ih, coeffOf_cons_ne _ _ _ h, coeffOf_cons_ne _ _ _ h]
        · rw [if_neg hz, List.cons_append, List.nil_append, coeffOf_cons_ne _ _ _ h, ih,
            coeffOf_cons_ne _ _ _ h, coeffOf_cons_ne _ _ _ h]
    · rw [if_neg (asymm hvw), if_pos hvw]
      have ih := coeffOf_mergeTerms opL opR binop hL hL0 hR hR0 hb ((v, c₁) :: l) r x
      rcases eq_or_ne w x with h | h
      · subst h
        rw [coeffOf_cons_self, coeffOf_cons_self, ih, hR]
        ring
      · rw [coeffOf_cons_ne _ _ _ h, coeffOf_cons_ne _ _ _ h, ih]
  termination_by l r => l.length + r.length

@[simp] theorem coeffOf_lcAdd (l r : List (V × ℚ)) (x : V) :
    coeffOf (lcAdd l r) x = coeffOf l x + coeffOf r x := by
  simpa using coeffOf_mergeTerms id id (· + ·)
    (by intro a b; rfl) rfl (by intro a b; rfl) rfl (by intro a b; rfl) l r x

@[simp] theorem coeffOf_lcSub (l r : List (V × ℚ)) (x : V) :
    coeffOf (lcSub l r) x = coeffOf l x - coeffOf r x := by
  have := @coeffOf_mergeTerms V _ id Neg.neg (· - ·)
    (by intro a b; rfl) rfl (by intro a b; simp; ring) (by simp)
    (by intro a b; simp; ring) l r x
  simpa [lcSub, sub_eq_add_neg] using this

@[simp] theorem coeffOf_lcSmul (c : ℚ) (l : List (V × ℚ)) (x : V) :
    coeffOf (lcSmul c l) x = c * coeffOf l x := by
  by_cases h : c = 0
  · simp [lcSmul, h]
  · induction l with
    | nil => simp [lcSmul, h]
    | cons t l ih =>
      simp only [lcSmul, if_neg h, List.map_cons, coeffOf_cons] at ih ⊢
      rcases eq_or_ne t.1 x with ht | ht
      · simp [ht, ih]
        ring
      · simp [ht, ih]

@[simp] theorem coeffOf_lcNeg (l : List (V × ℚ)) (x : V) :
    coeffOf (lcNeg l) x = -coeffOf l x := by
  induction l with
  | nil => simp [lcNeg]
  | cons t l ih =>
    simp only [lcNeg, List.map_cons, coeffOf_cons] at ih ⊢
    rcases eq_or_ne t.1 x with ht | ht
    · simp [ht, ih]
      ring
    · simp [ht, ih]

@[simp] theorem coeffOf_lcSingle (v : V) (c : ℚ) (x : V) :
    coeffOf (lcSingle v c) x = if v = x then c else 0 := by
  by_cases h : c = 0 <;> rcases eq_or_ne v x with hv | hv <;> simp [lcSingle, h, hv]

/-- Every variable of a merge comes from one of the two inputs. -/
theorem mergeTerms_mem_fst (opL opR : ℚ → ℚ) (binop : ℚ → ℚ → ℚ) :
    ∀ (l r : List (V × ℚ)) (t : V × ℚ), t ∈ mergeTerms opL opR binop l r →
      t.1 ∈ l.map Prod.fst ∨ t.1 ∈ r.map Prod.fst
  | [], [], t => by rw [mergeTerms_nil_nil]; simp
  | [], (w, c) :: r, t => by
    rw [mergeTerms_nil_cons]
    intro ht
    rcases List.mem_cons.1 ht with h | h
    · subst h; simp
    · rcases mergeTerms_mem_fst opL opR binop [] r t h with h₂ | h₂
      · simp at h₂
      · right; simp only [List.map_cons, List.mem_cons]; exact Or.inr h₂
  | (v, c) :: l, [], t => by
    rw [mergeTerms_cons_nil]
    intro ht
    rcases List.mem_cons.1 ht with h | h
    · subst h; simp
    · rcases mergeTerms_mem_fst opL opR binop l [] t h with h₂ | h₂
      · left; simp only [List.map_cons, List.mem_cons]; exact Or.inr h₂
      · simp at h₂
  | (v, c₁) :: l, (w, c₂) :: r, t => by
    rw [mergeTerms_cons_cons]
    rcases lt_trichotomy v w with hvw | hvw | hvw
    · rw [if_pos hvw]
      intro ht
      rcases List.mem_cons.1 ht with h | h
      · subst h; simp
      · rcases mergeTerms_mem_fst opL opR binop l ((w, c₂) :: r) t h with h₂ | h₂
        · left; simp only [List.map_cons, List.mem_cons]; exact Or.inr h₂
        · right; exact h₂
    · subst hvw
      rw [if_neg (lt_irrefl v), if_neg (lt_irrefl v)]
      intro ht
      rcases List.mem_append.1 ht with h | h
      · by_cases hz : binop c₁ c₂ = 0
        · rw [if_pos hz] at h; simp at h
        · rw [if_neg hz] at h
          simp only [List.mem_singleton] at h
          subst h; simp
      · rcases mergeTerms_mem_fst opL opR binop l r t h with h₂ | h₂
        · left; simp only [List.map_cons, List.mem_cons]; exact Or.inr h₂
        · right; simp only [List.map_cons, List.mem_cons]; exact Or.inr h₂
    · rw [if_neg (asymm hvw), if_pos hvw]
      intro ht
      rcases List.mem_cons.1 ht with h | h
      · subst h; simp
      · rcases mergeTerms_mem_fst opL opR binop ((v, c₁) :: l) r t h with h₂ | h₂
        · left; exact h₂
        · right; simp only [List.map_cons, List.mem_cons]; exact Or.inr h₂
  termination_by l r => l.length + r.length

/-- A merge of two sorted term vectors is sorted. -/
theorem mergeTerms_sorted (opL opR : ℚ → ℚ) (binop : ℚ → ℚ → ℚ) :
    ∀ (l r : List (V × ℚ)), LCSorted l → LCSorted r →
      LCSorted (mergeTerms opL opR binop l r)
  | [], [], _, _ => by rw [mergeTerms_nil_nil]; exact List.Pairwise.nil
  | [], (w, c) :: r, hl, hr => by
    rw [mergeTerms_nil_cons]
    rcases List.pairwise_cons.1 hr with ⟨hw, hr'⟩
    refine List.pairwise_cons.2 ⟨?_, mergeTerms_sorted opL opR binop [] r hl hr'⟩
    intro t ht
    rcases mergeTerms_mem_fst opL opR binop [] r t ht with h | h
    · simp at h
    · rcases List.mem_map.1 h with ⟨u, hu, hfst⟩
      rw [← hfst]; exact hw u hu
  | (v, c) :: l, [], hl, hr => by
    rw [mergeTerms_cons_nil]
    rcases List.pairwise_cons.1 hl with ⟨hv, hl'⟩
    refine List.pairwise_cons.2 ⟨?_, mergeTerms_sorted opL opR binop l [] hl' hr⟩
    intro t ht
    rcases mergeTerms_mem_fst opL opR binop l [] t ht with h | h
    · rcases List.mem_map.1 h with ⟨u, hu, hfst⟩
      rw [← hfst]; exact hv u hu
    · simp at h
  | (v, c₁) :: l, (w, c₂) :: r, hl, hr => by
    rw [mergeTerms_cons_cons]
    rcases List.pairwise_cons.1 hl with ⟨hv, hl'⟩
    rcases List.pairwise_cons.1 hr with ⟨hw, hr'⟩
    rcases lt_trichotomy v w with hvw | hvw | hvw
    · rw [if_pos hvw]
      refine List.pairwise_cons.2 ⟨?_, mergeTerms_sorted opL opR binop l ((w, c₂) :: r) hl' hr⟩
      intro t ht
      rcases mergeTerms_mem_fst opL opR binop l ((w, c₂) :: r) t ht with h | h
      · rcases List.mem_map.1 h with ⟨u, hu, hfst⟩
        rw [← hfst]; exact hv u hu
      · rcases List.mem_map.1 h with ⟨u, hu, hfst⟩
        rw [← hfst]
        rcases List.mem_cons.1 hu with h₂ | h₂
        · rw [h₂]; exact hvw
        · exact lt_trans hvw (hw u h₂)
    · subst hvw
      rw [if_neg (lt_irrefl v), if_neg (lt_irrefl v)]
      have ih := mergeTerms_sorted opL opR binop l r hl' hr'
      have hgt : ∀ t ∈ mergeTerms opL opR binop l r, v < t.1 := by
        intro t ht
        rcases mergeTerms_mem_fst opL opR binop l r t ht with h | h
        · rcases List.mem_map.1 h with ⟨u, hu, hfst⟩
          rw [← hfst]; exact hv u hu
        · rcases List.mem_map.1 h with ⟨u, hu, hfst⟩
          rw [← hfst]; exact hw u hu
      by_cases hz : binop c₁ c₂ = 0
      · rw [if_pos hz, List.nil_append]; exact ih
      · rw [if_neg hz, List.cons_append, List.nil_append]
        exact List.pairwise_cons.2 ⟨hgt, ih⟩
    · rw [if_neg (asymm hvw), if_pos hvw]
      refine List.pairwise_cons.2 ⟨?_, mergeTerms_sorted opL opR binop ((v, c₁) :: l) r hl hr'⟩
      intro t ht
      rcases mergeTerms_mem_fst opL opR binop ((v, c₁) :: l) r t ht with h | h
      · rcases List.mem_map.1 h with ⟨u, hu, hfst⟩
        rw [← hfst]
        rcases List.mem_cons.1 hu with h₂ | h₂
        · rw [h₂]; exact hvw
        · exact lt_trans hvw (hv u h₂)
      · rcases List.mem_map.1 h with ⟨u, hu, hfst⟩
        rw [← hfst]; exact hw u hu
  termination_by l r => l.length + r.length

/-- A merge of zero-free term vectors is zero-free, provided the unmatched
term transforms preserve nonzeroness (identity and negation do). -/
theorem mergeTerms_nz (opL opR : ℚ → ℚ) (binop : ℚ → ℚ → ℚ)
    (hL : ∀ a : ℚ, a ≠ 0 → opL a ≠ 0) (hR : ∀ a : ℚ, a ≠ 0 → opR a ≠ 0) :
    ∀ (l r : List (V × ℚ)), LCNZ l → LCNZ r →
      LCNZ (mergeTerms opL opR binop l r)
  | [], [], _, _ => by rw [mergeTerms_nil_nil]; intro t ht; simp at ht
  | [], (w, c) :: r, hl, hr => by
    rw [mergeTerms_nil_cons]
    intro t ht
    rcases List.mem_cons.1 ht with h | h
    · rw [h]; exact hR c (hr (w, c) (List.mem_cons_self _ _))
    · exact mergeTerms_nz opL opR binop hL hR [] r hl
        (fun u hu => hr u (List.mem_cons_of_mem _ hu)) t h
  | (v, c) :: l, [], hl, hr => by
    rw [mergeTerms_cons_nil]
    intro t ht
    rcases List.mem_cons.1 ht with h | h
    · rw [h]; exact hL c (hl (v, c) (List.mem_cons_self _ _))
    · exact mergeTerms_nz opL opR binop hL hR l []
        (fun u hu => hl u (List.mem_cons_of_mem _ hu)) hr t h
  | (v, c₁) :: l, (w, c₂) :: r, hl, hr => by
    rw [mergeTerms_cons_cons]
    have hl' : LCNZ l := fun u hu => hl u (List.mem_cons_of_mem _ hu)
    have hr' : LCNZ r := fun u hu => hr u (List.mem_cons_of_mem _ hu)
    rcases lt_trichotomy v w with hvw | hvw | hvw
    · rw [if_pos hvw]
      intro t ht
      rcases List.mem_cons.1 ht with h | h
      · rw [h]; exact hL c₁ (hl (v, c₁) (List.mem_cons_self _ _))
      · exact mergeTerms_nz opL opR binop hL hR l ((w, c₂) :: r) hl' hr t h
    · subst hvw
      rw [if_neg (lt_irrefl v), if_neg (lt_irrefl v)]
      intro t ht
      rcases List.mem_append.1 ht with h | h
      · by_cases hz : binop c₁ c₂ = 0
        · rw [if_pos hz] at h; simp at h
        · rw [if_neg hz] at h
          simp only [List.mem_singleton] at h
          rw [h]; exact hz
      · exact mergeTerms_nz opL opR binop hL hR l r hl' hr' t h
    · rw [if_neg (asymm hvw), if_pos hvw]
      intro t ht
      rcases List.mem_cons.1 ht with h | h
      · rw [h]; exact hR c₂ (hr (w, c₂) (List.mem_cons_self _ _))
      · exact mergeTerms_nz opL opR binop hL hR ((v, c₁) :: l) r hl hr' t h
  termination_by l r => l.length + r.length

/-- When every variable of the right vector is above the head of the left
one, a merge starts with the transformed head of the left vector. -/
theorem mergeTerms_cons_left (opL opR : ℚ → ℚ) (binop : ℚ → ℚ → ℚ)
    (v : V) (c : ℚ) (l r : List (V × ℚ)) (hr : ∀ t ∈ r, v < t.1) :
    mergeTerms opL opR binop ((v, c) :: l) r =
      (v, opL c) :: mergeTerms opL opR binop l r := by
  cases r with
  | nil => rw [mergeTerms_cons_nil]
  | cons t r =>
    obtain ⟨w, c₂⟩ := t
    rw [mergeTerms_cons_cons, if_pos (hr (w, c₂) (List.mem_cons_self _ _))]

theorem lcSmul_cons (c : ℚ) (hc : c ≠ 0) (v : V) (a : ℚ) (l : List (V × ℚ)) :
    lcSmul c ((v, a) :: l) = (v, a * c) :: lcSmul c l := by
  simp [lcSmul, hc]

theorem lcSmul_sorted (c : ℚ) (l : List (V × ℚ)) (h : LCSorted l) :
    LCSorted (lcSmul c l) := by
  by_cases hc : c = 0
  · simp [lcSmul, hc, LCSorted]
  · simp only [lcSmul, if_neg hc]
    exact List.pairwise_map.2 (by simpa using h)

theorem lcSmul_nz (c : ℚ) (hc : c ≠ 0) (l : List (V × ℚ)) (h : LCNZ l) :
    LCNZ (lcSmul c l) := by
  simp only [lcSmul, if_neg hc]
  intro t ht
  rcases List.mem_map.1 ht with ⟨u, hu, hut⟩
  rw [← hut]
  exact mul_ne_zero (h u hu) hc

theorem lcNeg_sorted (l : List (V × ℚ)) (h : LCSorted l) : LCSorted (lcNeg l) :=
  List.pairwise_map.2 (by simpa using h)

theorem lcNeg_nz (l : List (V × ℚ)) (h : LCNZ l) : LCNZ (lcNeg l) := by
  intro t ht
  rcases List.mem_map.1 ht with ⟨u, hu, hut⟩
  rw [← hut]
  simpa using h u hu

theorem lcAdd_sorted (l r : List (V × ℚ)) (hl : LCSorted l) (hr : LCSorted r) :
    LCSorted (lcAdd l r) :=
  mergeTerms_sorted _ _ _ l r hl hr

theorem lcSub_sorted (l r : List (V × ℚ)) (hl : LCSorted l) (hr : LCSorted r) :
    LCSorted (lcSub l r) :=
  mergeTerms_sorted _ _ _ l r hl hr

theorem lcAdd_nz (l r : List (V × ℚ)) (hl : LCNZ l) (hr : LCNZ r) :
    LCNZ (lcAdd l r) :=
  mergeTerms_nz _ _ _ (fun _ h => h) (fun _ h => h) l r hl hr

theorem lcSub_nz (l r : List (V × ℚ)) (hl : LCNZ l) (hr : LCNZ r) :
    LCNZ (lcSub l r) :=
  mergeTerms_nz _ _ _ (fun _ h => h) (fun a h => by simpa using h) l r hl hr

theorem lcSub_mem_fst (l r : List (V × ℚ)) (t : V × ℚ) (ht : t ∈ lcSub l r) :
    t.1 ∈ l.map Prod.fst ∨ t.1 ∈ r.map Prod.fst :=
  mergeTerms_mem_fst _ _ _ l r t ht

/-! ## Equations (src/ar/equation.cpp)

An equation couples an LHS linear combination over variables V with an RHS
value in the domain RHS carrier.  The four domains share one template; the
RHS arithmetic is supplied by the domain (EquationTraits), which we model
as an explicit operations record. -/

/-- Equation of Equation.hpp: a linear combination equal to an RHS value. -/
structure Eqn (V R : Type) where
  lhs : List (V × ℚ)
  rhs : R
deriving DecidableEq

/-- The RHS arithmetic a domain supplies: the operations used by the
componentwise Equation operators. -/
structure ROps (R : Type) where
  zero : R
  add : R → R → R
  sub : R → R → R
  neg : R → R
  smul : ℚ → R → R

variable {R : Type}

/-- The default-constructed 0 = 0 equation. -/
def eqnZero (ops : ROps R) : Eqn V R := ⟨[], ops.zero⟩

/-- Equation::operator+ : componentwise addition. -/
def eqnAdd (ops : ROps R) (a b : Eqn V R) : Eqn V R :=
  ⟨lcAdd a.lhs b.lhs, ops.add a.rhs b.rhs⟩

/-- Equation::operator- (binary): componentwise subtraction. -/
def eqnSub (ops : ROps R) (a b : Eqn V R) : Eqn V R :=
  ⟨lcSub a.lhs b.lhs, ops.sub a.rhs b.rhs⟩

/-- Equation::operator- (unary): componentwise negation. -/
def eqnNeg (ops : ROps R) (a : Eqn V R) : Eqn V R :=
  ⟨lcNeg a.lhs, ops.neg a.rhs⟩

/-- Equation::operator* by a rational: componentwise scalar multiplication. -/
def eqnSmul (ops : ROps R) (c : ℚ) (a : Eqn V R) : Eqn V R :=
  ⟨lcSmul c a.lhs, ops.smul c a.rhs⟩

/-- Equation::is_empty: empty LHS and default RHS. -/
def eqnIsEmpty [DecidableEq R] (ops : ROps R) (e : Eqn V R) : Bool :=
  e.lhs.isEmpty && decide (e.rhs = ops.zero)

/-- The RHS operations for equations over equation indices
(EquationTraits of EqnIndex: the RHS carrier is itself an Equation,
operated on componentwise). -/
def eqnROps (ops : ROps R) : ROps (Eqn V R) :=
  ⟨eqnZero ops, eqnAdd ops, eqnSub ops, eqnNeg ops, eqnSmul ops⟩

/-! ## The linear system (src/ar/linear_system.cpp)

EqnIndex is an insertion sequence number into the append-only vector of
original equations; we model it as the natural-number index.  The echelon
form maps a pivot variable to an Equation over indices: its LHS is a linear
combination of original-row indices, its RHS the concrete equation that
this combination equals. -/

/-- An echelon row: Equation over EqnIndex, whose RHS is a concrete
equation over the variables. -/
abbrev EchRow (V R : Type) := Eqn ℕ (Eqn V R)

/-- The per-domain linear system state of LinearSystem.hpp.  The statement
provenance stored alongside each original equation does not affect the
algebra and is dropped here. -/
structure Sys (V R : Type) where
  originals : List (Eqn V R)
  echelon : List (V × EchRow V R)
  pivotByNext : List (V × List V)
  foundVars : List V
deriving DecidableEq

/-- Decidable equality for Except results, used to evaluate the embedded
add_reduced_equation on concrete inputs. -/
instance {E A : Type} [DecidableEq E] [DecidableEq A] : DecidableEq (Except E A) :=
  fun a b =>
    match a, b with
    | .ok x, .ok y =>
      if h : x = y then isTrue (by rw [h]) else isFalse (fun hc => h (by injection hc))
    | .error x, .error y =>
      if h : x = y then isTrue (by rw [h]) else isFalse (fun hc => h (by injection hc))
    | .ok _, .error _ => isFalse (fun hc => by injection hc)
    | .error _, .ok _ => isFalse (fun hc => by injection hc)

/-- The default-constructed empty linear system. -/
def sysEmpty : Sys V R := ⟨[], [], [], []⟩

/-- Association-list lookup, modelling map::find. -/
def alookup {K A : Type} [DecidableEq K] (k : K) : List (K × A) → Option A
  | [] => none
  | p :: t => if p.1 = k then some p.2 else alookup k t

/-- Association-list value update at a key, modelling writing through a
map iterator. -/
def aupdate {K A : Type} [DecidableEq K] (k : K) (a : A) (l : List (K × A)) :
    List (K × A) :=
  l.map fun p => if p.1 = k then (k, a) else p

/-- Association-list key removal, modelling map::erase. -/
def aerase {K A : Type} [DecidableEq K] (k : K) (l : List (K × A)) : List (K × A) :=
  l.filter fun p => decide (p.1 ≠ k)

/-- Ordered-set insertion, modelling set::insert (std::set iterates in
sorted order, which the back-substitution loop relies on). -/
def sinsert (v : V) : List V → List V
  | [] => [v]
  | w :: t => if v < w then v :: w :: t else if w < v then w :: sinsert v t else w :: t

/-- Insertion into the pivot-by-next cache: m_pivot_by_next[next].insert(head). -/
def pbnInsert (w v : V) (m : List (V × List V)) : List (V × List V) :=
  match alookup w m with
  | some s => aupdate w (sinsert v s) m
  | none => m ++ [(w, sinsert v [])]

/-! ## Reduced equations (src/ar/reduced_equation.cpp) -/

/-- ReducedEquation: the original equation, the linear combination of
original-row indices performed so far (an Equation over indices whose RHS
tracks the concrete combined equation), and the remainder. -/
structure RedEq (V R : Type) where
  original : Eqn V R
  lc : EchRow V R
  remainder : Eqn V R
deriving DecidableEq

/-- The ReducedEquation constructor: empty linear combination, remainder
equal to the original equation. -/
def mkRedEq (ops : ROps R) (e : Eqn V R) : RedEq V R :=
  ⟨e, ⟨[], eqnZero ops⟩, e⟩

/-- One pass of the ReducedEquation::reduce loop: none when the loop
exits (empty remainder LHS, or its leading variable has no pivot),
otherwise the updated reduced equation: add coeff times the pivot row to
the linear combination, subtract coeff times the pivot row RHS from the
remainder. -/
def reduceStep? (ops : ROps R) (sys : Sys V R) (re : RedEq V R) :
    Option (RedEq V R) :=
  match re.remainder.lhs with
  | [] => none
  | (var, coeff) :: _ =>
    match alookup var sys.echelon with
    | none => none
    | some prow =>
      some
        { re with
          lc := eqnAdd (eqnROps ops) re.lc (eqnSmul (eqnROps ops) coeff prow)
          remainder := eqnSub ops re.remainder (eqnSmul ops coeff prow.rhs) }

/-- ReducedEquation::reduce, fuel-indexed: iterate the loop pass until it
exits or the fuel runs out. -/
def reduce (ops : ROps R) (sys : Sys V R) : ℕ → RedEq V R → RedEq V R
  | 0, re => re
  | fuel + 1, re =>
    match reduceStep? ops sys re with
    | none => re
    | some re₂ => reduce ops sys fuel re₂

/-- One pass of the LinearSystem::reduce_next loop: none when the loop
exits (fewer than two terms, or the second variable has no pivot),
otherwise the row with its second term eliminated against that pivot row. -/
def reduceNextStep? (ops : ROps R) (ech : List (V × EchRow V R))
    (e : EchRow V R) : Option (EchRow V R) :=
  match e.rhs.lhs with
  | [] => none
  | [_] => none
  | _ :: (nextVar, nextCoeff) :: _ =>
    match alookup nextVar ech with
    | none => none
    | some rowNext =>
      some (eqnSub (eqnROps ops) e (eqnSmul (eqnROps ops) nextCoeff rowNext))

/-- The exit actions of the reduce_next loop: a single remaining term
registers its variable as newly found; a second term without a pivot
registers the row head in the pivot-by-next cache. -/
def reduceNextExit (e : EchRow V R) (pbn : List (V × List V)) (found : List V) :
    EchRow V R × List (V × List V) × List V :=
  match e.rhs.lhs with
  | [] => (e, pbn, found)
  | [(headVar, _)] => (e, pbn, sinsert headVar found)
  | (headVar, _) :: (nextVar, _) :: _ => (e, pbnInsert nextVar headVar pbn, found)

/-- The exit actions of reduce_next leave the row unchanged. -/
theorem reduceNextExit_fst (e : EchRow V R) (pbn : List (V × List V))
    (found : List V) : (reduceNextExit e pbn found).1 = e := by
  rw [reduceNextExit]
  split <;> rfl

/-- LinearSystem::reduce_next, fuel-indexed.  Repeatedly: if the row RHS
LHS is a single term, record its variable as newly found; if the second
term has no pivot, record the row head in the pivot-by-next cache;
otherwise eliminate the second term against its pivot row.  Returns the
updated row together with the updated caches. -/
def reduceNext (ops : ROps R) (ech : List (V × EchRow V R)) :
    ℕ → EchRow V R → List (V × List V) → List V →
    EchRow V R × List (V × List V) × List V
  | 0, e, pbn, found => (e, pbn, found)
  | fuel + 1, e, pbn, found =>
    match reduceNextStep? ops ech e with
    | none => reduceNextExit e pbn found
    | some e₂ => reduceNext ops ech fuel e₂ pbn found

/-- The mutable system state threaded through insertion and partial back
substitution: echelon form, pivot-by-next cache, found-variables cache. -/
abbrev BState (V R : Type) := List (V × EchRow V R) × List (V × List V) × List V

/-- The new echelon row before rescaling, from add_reduced_equation: start
from the single term (new index, 1) with the original equation as RHS, and
subtract the reduction linear combination (computed as the negated
combination plus that row). -/
def pendingRow (ops : ROps R) (sys : Sys V R) (re : RedEq V R) : EchRow V R :=
  eqnAdd (eqnROps ops) (eqnNeg (eqnROps ops) re.lc)
    ⟨lcSingle sys.originals.length 1, re.original⟩

/-- One step of the partial back-substitution loop: re-run reduce_next on
the echelon row of one pivot, writing the result back. -/
def backSubStep (ops : ROps R) (fuel : ℕ) (st : BState V R) (piv : V) : BState V R :=
  match alookup piv st.1 with
  | none => st
  | some prow =>
    let r := reduceNext ops st.1 fuel prow st.2.1 st.2.2
    (aupdate piv r.1 st.1, r.2.1, r.2.2)

/-- The partial back-substitution of add_reduced_equation: for every pivot
whose row had the fresh pivot v as its second variable, re-run reduce_next
on its row, then drop the pivot-by-next entry of v. -/
def backSub (ops : ROps R) (fuel : ℕ) (v : V) (st : BState V R) : BState V R :=
  match alookup v st.2.1 with
  | none => st
  | some pivots =>
    let st₂ := pivots.foldl (backSubStep ops fuel) st
    (st₂.1, aerase v st₂.2.1, st₂.2.2)

/-- The successful insertion path of add_reduced_equation, after the error
checks: rescale the pending row so that its leading coefficient is one,
reduce its next term, append the original equation and the new echelon
row, and partially back-substitute. -/
def addRowOk (ops : ROps R) (fuel : ℕ) (sys : Sys V R) (re : RedEq V R)
    (v : V) (c : ℚ) : Sys V R :=
  let lc₂ := eqnSmul (eqnROps ops) (1 / c) (pendingRow ops sys re)
  let st₁ := reduceNext ops sys.echelon fuel lc₂ sys.pivotByNext sys.foundVars
  let st₂ := backSub ops fuel v (sys.echelon ++ [(v, st₁.1)], st₁.2.1, st₁.2.2)
  ⟨sys.originals ++ [re.original], st₂.1, st₂.2.1, st₂.2.2⟩

/-- LinearSystem::add_reduced_equation.  The solved test is supplied by the
domain (ReducedEquation::is_solved dispatches on the RHS carrier).  On an
already-solved equation: skip.  On an empty-LHS unsolved remainder: fatal
contradiction, raised before any state changes.  Otherwise append the
original, form the new echelon row, rescale its leading coefficient to one,
run reduce_next, insert it at its pivot (fatal if the pivot is already
taken), and partially back-substitute the rows whose second variable was
this pivot. -/
def addReducedEquation (ops : ROps R) (isS : RedEq V R → Bool) (fuel : ℕ)
    (sys : Sys V R) (re : RedEq V R) : Except String (Sys V R) :=
  if isS re then .ok sys
  else if re.remainder.lhs.isEmpty then .error "Proved contradiction in AR"
  else
    match (pendingRow ops sys re).rhs.lhs with
    | [] => .error "reduced row has empty left-hand side"
    | (v, c) :: _ =>
      if (alookup v sys.echelon).isSome then
        .error "Trying to inssert a non-reduced equation"
      else .ok (addRowOk ops fuel sys re v c)

/-- ReducedEquation::is_solved for the Len, Len-squared and Ratio domains:
the remainder is the empty equation. -/
def isSolvedGen [DecidableEq R] (ops : ROps R) (re : RedEq V R) : Bool :=
  eqnIsEmpty ops re.remainder

/-! ## The angle carrier (src/numbers/add_circle.cpp)

AddCircle of Rat keeps a representative in the interval from 0 inclusive to
1 exclusive; every operation reduces modulo one.  Scalar multiplication by
a rational with denominator above one is multivalued on the circle; the
implementation deterministically multiplies the stored representative and
reduces, which picks one branch. -/

/-- mod1_reduce: the representative of a rational in the unit interval. -/
def fract (q : ℚ) : ℚ := q - ⌊q⌋

/-- The RHS operations of the Ang domain: AddCircle of Rat arithmetic on
stored representatives. -/
def acOps : ROps ℚ :=
  ⟨0, fun a b => fract (a + b), fun a b => fract (a - b), fun a => fract (-a),
    fun c a => fract (a * c)⟩

/-- The integer-rescaled right-hand side computed by the Ang branch of
ReducedEquation::is_solved: with c the common denominator of the linear
combination coefficients (so that every multiplier c * coeff is an
integer), compute c times the original RHS minus the sum over the linear
combination of (c * coeff) times the referenced original row RHS, in
AddCircle arithmetic. -/
def angMultipliedRhs (origs : List (Eqn V ℚ)) (re : RedEq V ℚ) : ℚ :=
  let c : ℚ := (commonDenominator re.lc.lhs : ℚ)
  re.lc.lhs.foldl
    (fun rhs t => fract (rhs - fract ((origs.getD t.1 (eqnZero acOps)).rhs * (c * t.2))))
    (fract (re.original.rhs * c))

/-- ReducedEquation::is_solved for the Ang domain: false on a nonempty
remainder LHS; true on a zero remainder RHS; otherwise recompute the RHS
with integer multipliers and test it against zero. -/
def isSolvedAng (origs : List (Eqn V ℚ)) (re : RedEq V ℚ) : Bool :=
  match re.remainder.lhs with
  | _ :: _ => false
  | [] =>
    if re.remainder.rhs = 0 then true
    else decide (angMultipliedRhs origs re = 0)

/-- The warning condition of the Ang branch of is_solved: the code logs
"Angle equation reduced to 0 = nonzero, even after multiplication by
denominators" exactly when the recomputed RHS is nonzero (and then returns
false rather than raising an error). -/
def isSolvedAngWarns (origs : List (Eqn V ℚ)) (re : RedEq V ℚ) : Bool :=
  match re.remainder.lhs with
  | _ :: _ => false
  | [] =>
    if re.remainder.rhs = 0 then false
    else decide (angMultipliedRhs origs re ≠ 0)

/-! ## Semantic reading of rows and the reduction invariant (claim C1)

The reduction invariant is stated per variable coefficient and on the RHS
value: the original equation equals the recorded linear combination of
original rows plus the remainder.  On the RHS this uses the domain module
structure; the Len and Len-squared domains carry exact rationals and the
Ratio domain carries RootRat, a formal finitely-supported rational-linear
combination of prime bases, all of which are rational vector spaces. -/

/-- The RHS operations of a domain whose carrier is a rational module with
genuinely linear scalar action (Len, Len squared, Ratio). -/
def moduleOps (R : Type) [AddCommGroup R] [Module ℚ R] : ROps R :=
  ⟨0, (· + ·), (· - ·), Neg.neg, (· • ·)⟩

/-- The coefficient at variable x of a linear combination of original-row
indices: sum over the rows of the recorded row coefficient times the row
LHS coefficient at x. -/
def sumIdxLhs (origs : List (Eqn V R)) (l : List (ℕ × ℚ)) (x : V) : ℚ :=
  ∑ i ∈ Finset.range origs.length,
    coeffOf l i * coeffOf ((origs.map Eqn.lhs).getD i []) x

/-- The RHS value of a linear combination of original-row indices: sum
over the rows of the recorded coefficient acting on the row RHS. -/
def sumIdxRhs {R : Type} [AddCommGroup R] [Module ℚ R]
    (origs : List (Eqn V R)) (l : List (ℕ × ℚ)) : R :=
  ∑ i ∈ Finset.range origs.length,
    coeffOf l i • ((origs.map Eqn.rhs).getD i 0)

/-- A linear combination of row indices together with a concrete equation
that correctly records its value: the equation equals the combination of
original rows, coefficientwise on the LHS and exactly on the RHS, with all
indices in range. -/
structure RowCorrect {R : Type} [AddCommGroup R] [Module ℚ R]
    (origs : List (Eqn V R)) (row : EchRow V R) : Prop where
  lhsEq : ∀ x : V, sumIdxLhs origs row.lhs x = coeffOf row.rhs.lhs x
  rhsEq : sumIdxRhs origs row.lhs = row.rhs.rhs
  bounded : ∀ t ∈ row.lhs, t.1 < origs.length

/-- The claim C1 identity for a reduced equation: the tracked combination
is row-correct and the original equation equals the combination of
original rows plus the remainder, coefficientwise on the LHS and exactly
on the RHS. -/
structure RedInv {R : Type} [AddCommGroup R] [Module ℚ R]
    (origs : List (Eqn V R)) (re : RedEq V R) : Prop where
  combo : RowCorrect origs re.lc
  lhsEq : ∀ x : V,
    sumIdxLhs origs re.lc.lhs x + coeffOf re.remainder.lhs x = coeffOf re.original.lhs x
  rhsEq : sumIdxRhs origs re.lc.lhs + re.remainder.rhs = re.original.rhs

/-- Every echelon row of the system is row-correct. -/
def SysCorrect {R : Type} [AddCommGroup R] [Module ℚ R] (sys : Sys V R) : Prop :=
  ∀ p ∈ sys.echelon, RowCorrect sys.originals p.2

/-! ### Association-list and bookkeeping lemmas -/

theorem alookup_mem {K A : Type} [DecidableEq K] (k : K) (a : A) :
    ∀ l : List (K × A), alookup k l = some a → (k, a) ∈ l
  | [], h => by simp [alookup] at h
  | p :: t, h => by
    rw [alookup] at h
    by_cases hk : p.1 = k
    · rw [if_pos hk] at h
      have : p = (k, a) := by
        obtain ⟨p₁, p₂⟩ := p
        simp only at hk h
        injection h with h₂
        rw [hk, h₂]
      rw [← this]
      exact List.mem_cons_self _ _
    · rw [if_neg hk] at h
      exact List.mem_cons_of_mem _ (alookup_mem k a t h)

theorem alookup_eq_none {K A : Type} [DecidableEq K] (k : K) :
    ∀ l : List (K × A), alookup k l = none ↔ k ∉ l.map Prod.fst
  | [] => by simp [alookup]
  | p :: t => by
    rw [alookup]
    by_cases hk : p.1 = k
    · simp [hk]
    · simp only [if_neg hk, List.map_cons, List.mem_cons]
      rw [alookup_eq_none k t]
      constructor
      · intro h hmem
        rcases hmem with h₂ | h₂
        · exact hk h₂.symm
        · exact h h₂
      · intro h h₂
        exact h (Or.inr h₂)

theorem aupdate_keys {K A : Type} [DecidableEq K] (k : K) (a : A) (l : List (K × A)) :
    (aupdate k a l).map Prod.fst = l.map Prod.fst := by
  induction l with
  | nil => rfl
  | cons p t ih =>
    simp only [aupdate, List.map_cons] at ih ⊢
    by_cases hk : p.1 = k
    · rw [if_pos hk, ih]
      simp [hk]
    · rw [if_neg hk, ih]

theorem aupdate_mem {K A : Type} [DecidableEq K] (k : K) (a : A) (l : List (K × A))
    (q : K × A) (hq : q ∈ aupdate k a l) : q = (k, a) ∨ q ∈ l := by
  rcases List.mem_map.1 hq with ⟨p, hp, hpq⟩
  by_cases hk : p.1 = k
  · rw [if_pos hk] at hpq
    exact Or.inl hpq.symm
  · rw [if_neg hk] at hpq
    exact Or.inr (hpq ▸ hp)

theorem aerase_mem {K A : Type} [DecidableEq K] (k : K) (l : List (K × A))
    (q : K × A) (hq : q ∈ aerase k l) : q ∈ l :=
  List.mem_of_mem_filter hq

theorem alookup_append_right {K A : Type} [DecidableEq K] (k : K) (a : A)
    (l : List (K × A)) (h : k ∉ l.map Prod.fst) :
    alookup k (l ++ [(k, a)]) = some a := by
  induction l with
  | nil => simp [alookup]
  | cons p t ih =>
    simp only [List.map_cons, List.mem_cons] at h
    push_neg at h
    rw [List.cons_append, alookup, if_neg (fun hc => h.1 hc.symm)]
    exact ih h.2

/-- A variable absent from every stored term has coefficient zero. -/
theorem coeffOf_eq_zero (l : List (V × ℚ)) (x : V) (h : ∀ t ∈ l, t.1 ≠ x) :
    coeffOf l x = 0 := by
  induction l with
  | nil => rfl
  | cons t l ih =>
    rw [coeffOf_cons, if_neg (h t (List.mem_cons_self _ _)),
      ih fun u hu => h u (List.mem_cons_of_mem _ hu)]
    ring

theorem lcSmul_mem_fst (c : ℚ) (l : List (V × ℚ)) (t : V × ℚ)
    (ht : t ∈ lcSmul c l) : t.1 ∈ l.map Prod.fst := by
  by_cases hc : c = 0
  · simp [lcSmul, hc] at ht
  · simp only [lcSmul, if_neg hc] at ht
    rcases List.mem_map.1 ht with ⟨u, hu, hut⟩
    rw [← hut]
    exact List.mem_map.2 ⟨u, hu, rfl⟩

theorem lcNeg_mem_fst (l : List (V × ℚ)) (t : V × ℚ) (ht : t ∈ lcNeg l) :
    t.1 ∈ l.map Prod.fst := by
  rcases List.mem_map.1 ht with ⟨u, hu, hut⟩
  rw [← hut]
  exact List.mem_map.2 ⟨u, hu, rfl⟩

theorem lcAdd_mem_fst (l r : List (V × ℚ)) (t : V × ℚ) (ht : t ∈ lcAdd l r) :
    t.1 ∈ l.map Prod.fst ∨ t.1 ∈ r.map Prod.fst :=
  mergeTerms_mem_fst _ _ _ l r t ht

theorem lcSingle_mem_fst (v : V) (c : ℚ) (t : V × ℚ) (ht : t ∈ lcSingle v c) :
    t.1 = v := by
  by_cases hc : c = 0 <;> simp [lcSingle, hc] at ht
  rw [ht]

/-! ### Linearity of the semantic reading -/

section SemanticLinearity

variable {R : Type} [AddCommGroup R] [Module ℚ R]

theorem sumIdxLhs_nil (origs : List (Eqn V R)) (x : V) :
    sumIdxLhs origs ([] : List (ℕ × ℚ)) x = 0 := by
  simp [sumIdxLhs]

theorem sumIdxRhs_nil (origs : List (Eqn V R)) :
    sumIdxRhs origs ([] : List (ℕ × ℚ)) = 0 := by
  simp [sumIdxRhs]

theorem sumIdxLhs_lcAdd (origs : List (Eqn V R)) (a b : List (ℕ × ℚ)) (x : V) :
    sumIdxLhs origs (lcAdd a b) x = sumIdxLhs origs a x + sumIdxLhs origs b x := by
  unfold sumIdxLhs
  rw [← Finset.sum_add_distrib]
  exact Finset.sum_congr rfl fun i _ => by rw [coeffOf_lcAdd]; ring

theorem sumIdxLhs_lcSub (origs : List (Eqn V R)) (a b : List (ℕ × ℚ)) (x : V) :
    sumIdxLhs origs (lcSub a b) x = sumIdxLhs origs a x - sumIdxLhs origs b x := by
  unfold sumIdxLhs
  rw [← Finset.sum_sub_distrib]
  exact Finset.sum_congr rfl fun i _ => by rw [coeffOf_lcSub]; ring

theorem sumIdxLhs_lcNeg (origs : List (Eqn V R)) (a : List (ℕ × ℚ)) (x : V) :
    sumIdxLhs origs (lcNeg a) x = -sumIdxLhs origs a x := by
  unfold sumIdxLhs
  rw [← Finset.sum_neg_distrib]
  exact Finset.sum_congr rfl fun i _ => by rw [coeffOf_lcNeg]; ring

theorem sumIdxLhs_lcSmul (origs : List (Eqn V R)) (c : ℚ) (a : List (ℕ × ℚ)) (x : V) :
    sumIdxLhs origs (lcSmul c a) x = c * sumIdxLhs origs a x := by
  unfold sumIdxLhs
  rw [Finset.mul_sum]
  exact Finset.sum_congr rfl fun i _ => by rw [coeffOf_lcSmul]; ring

theorem sumIdxLhs_lcSingle (origs : List (Eqn V R)) (n : ℕ) (c : ℚ) (x : V)
    (h : n < origs.length) :
    sumIdxLhs origs (lcSingle n c) x = c * coeffOf ((origs.map Eqn.lhs).getD n []) x := by
  unfold sumIdxLhs
  rw [Finset.sum_eq_single n]
  · rw [coeffOf_lcSingle, if_pos rfl]
  · intro i _ hne
    rw [coeffOf_lcSingle, if_neg (fun hin => hne hin.symm)]
    ring
  · intro hn
    exact absurd (Finset.mem_range.2 h) hn

theorem sumIdxRhs_lcAdd (origs : List (Eqn V R)) (a b : List (ℕ × ℚ)) :
    sumIdxRhs origs (lcAdd a b) = sumIdxRhs origs a + sumIdxRhs origs b := by
  unfold sumIdxRhs
  rw [← Finset.sum_add_distrib]
  exact Finset.sum_congr rfl fun i _ => by rw [coeffOf_lcAdd, add_smul]

theorem sumIdxRhs_lcSub (origs : List (Eqn V R)) (a b : List (ℕ × ℚ)) :
    sumIdxRhs origs (lcSub a b) = sumIdxRhs origs a - sumIdxRhs origs b := by
  unfold sumIdxRhs
  rw [← Finset.sum_sub_distrib]
  exact Finset.sum_congr rfl fun i _ => by rw [coeffOf_lcSub, sub_smul]

theorem sumIdxRhs_lcNeg (origs : List (Eqn V R)) (a : List (ℕ × ℚ)) :
    sumIdxRhs origs (lcNeg a) = -sumIdxRhs origs a := by
  unfold sumIdxRhs
  rw [← Finset.sum_neg_distrib]
  exact Finset.sum_congr rfl fun i _ => by rw [coeffOf_lcNeg, neg_smul]

theorem sumIdxRhs_lcSmul (origs : List (Eqn V R)) (c : ℚ) (a : List (ℕ × ℚ)) :
    sumIdxRhs origs (lcSmul c a) = c • sumIdxRhs origs a := by
  unfold sumIdxRhs
  rw [Finset.smul_sum]
  exact Finset.sum_congr rfl fun i _ => by rw [coeffOf_lcSmul, mul_smul]

theorem sumIdxRhs_lcSingle (origs : List (Eqn V R)) (n : ℕ) (c : ℚ)
    (h : n < origs.length) :
    sumIdxRhs origs (lcSingle n c) = c • ((origs.map Eqn.rhs).getD n 0) := by
  unfold sumIdxRhs
  rw [Finset.sum_eq_single n]
  · rw [coeffOf_lcSingle, if_pos rfl]
  · intro i _ hne
    rw [coeffOf_lcSingle, if_neg (fun hin => hne hin.symm), zero_smul]
  · intro hn
    exact absurd (Finset.mem_range.2 h) hn

/-- Growing the original list does not change the semantic reading of a
combination whose indices are in range. -/
theorem sumIdxLhs_append (origs ext : List (Eqn V R)) (l : List (ℕ × ℚ)) (x : V)
    (hb : ∀ t ∈ l, t.1 < origs.length) :
    sumIdxLhs (origs ++ ext) l x = sumIdxLhs origs l x := by
  unfold sumIdxLhs
  rw [List.length_append]
  rw [← Finset.sum_subset (Finset.range_subset.2 (Nat.le_add_right _ _))]
  · exact Finset.sum_congr rfl fun i hi => by
      rw [List.map_append, List.getD_append]
      rw [List.length_map]
      exact Finset.mem_range.1 hi
  · intro i _ hni
    rw [coeffOf_eq_zero l i fun t ht => by
      intro hti
      exact hni (Finset.mem_range.2 (hti ▸ hb t ht))]
    ring

theorem sumIdxRhs_append (origs ext : List (Eqn V R)) (l : List (ℕ × ℚ))
    (hb : ∀ t ∈ l, t.1 < origs.length) :
    sumIdxRhs (origs ++ ext) l = sumIdxRhs origs l := by
  unfold sumIdxRhs
  rw [List.length_append]
  rw [← Finset.sum_subset (Finset.range_subset.2 (Nat.le_add_right _ _))]
  · exact Finset.sum_congr rfl fun i hi => by
      rw [List.map_append, List.getD_append]
      rw [List.length_map]
      exact Finset.mem_range.1 hi
  · intro i _ hni
    rw [coeffOf_eq_zero l i fun t ht => by
      intro hti
      exact hni (Finset.mem_range.2 (hti ▸ hb t ht)), zero_smul]

end SemanticLinearity

/-- Foldl preserves any invariant preserved by each step. -/
theorem foldl_preserve {A S : Type} (P : S → Prop) (f : S → A → S)
    (hstep : ∀ s a, P s → P (f s a)) :
    ∀ (l : List A) (init : S), P init → P (l.foldl f init)
  | [], _, h => h
  | a :: l, init, h => foldl_preserve P f hstep l (f init a) (hstep init a h)

theorem lt_of_mem_fst {l : List (ℕ × ℚ)} {n : ℕ} (hb : ∀ t ∈ l, t.1 < n)
    {k : ℕ} (hk : k ∈ l.map Prod.fst) : k < n := by
  rcases List.mem_map.1 hk with ⟨u, hu, huk⟩
  exact huk ▸ hb u hu

theorem getD_append_self {A : Type} (l : List A) (a d : A) :
    (l ++ [a]).getD l.length d = a := by
  rw [List.getD_append_right l [a] d l.length (le_refl _)]
  simp

/-! ### Row correctness is preserved by the row algebra (claim C1) -/

section RowCorrectAlgebra

variable {R : Type} [AddCommGroup R] [Module ℚ R]

theorem rowCorrect_add {origs : List (Eqn V R)} {a b : EchRow V R}
    (ha : RowCorrect origs a) (hb : RowCorrect origs b) :
    RowCorrect origs (eqnAdd (eqnROps (moduleOps R)) a b) := by
  constructor
  · intro x
    show sumIdxLhs origs (lcAdd a.lhs b.lhs) x = coeffOf (lcAdd a.rhs.lhs b.rhs.lhs) x
    rw [sumIdxLhs_lcAdd, coeffOf_lcAdd, ha.lhsEq, hb.lhsEq]
  · show sumIdxRhs origs (lcAdd a.lhs b.lhs) = a.rhs.rhs + b.rhs.rhs
    rw [sumIdxRhs_lcAdd, ha.rhsEq, hb.rhsEq]
  · intro t ht
    rcases lcAdd_mem_fst a.lhs b.lhs t ht with h | h
    · exact lt_of_mem_fst ha.bounded h
    · exact lt_of_mem_fst hb.bounded h

theorem rowCorrect_sub {origs : List (Eqn V R)} {a b : EchRow V R}
    (ha : RowCorrect origs a) (hb : RowCorrect origs b) :
    RowCorrect origs (eqnSub (eqnROps (moduleOps R)) a b) := by
  constructor
  · intro x
    show sumIdxLhs origs (lcSub a.lhs b.lhs) x = coeffOf (lcSub a.rhs.lhs b.rhs.lhs) x
    rw [sumIdxLhs_lcSub, coeffOf_lcSub, ha.lhsEq, hb.lhsEq]
  · show sumIdxRhs origs (lcSub a.lhs b.lhs) = a.rhs.rhs - b.rhs.rhs
    rw [sumIdxRhs_lcSub, ha.rhsEq, hb.rhsEq]
  · intro t ht
    rcases lcSub_mem_fst a.lhs b.lhs t ht with h | h
    · exact lt_of_mem_fst ha.bounded h
    · exact lt_of_mem_fst hb.bounded h

theorem rowCorrect_neg {origs : List (Eqn V R)} {a : EchRow V R}
    (ha : RowCorrect origs a) :
    RowCorrect origs (eqnNeg (eqnROps (moduleOps R)) a) := by
  constructor
  · intro x
    show sumIdxLhs origs (lcNeg a.lhs) x = coeffOf (lcNeg a.rhs.lhs) x
    rw [sumIdxLhs_lcNeg, coeffOf_lcNeg, ha.lhsEq]
  · show sumIdxRhs origs (lcNeg a.lhs) = -a.rhs.rhs
    rw [sumIdxRhs_lcNeg, ha.rhsEq]
  · exact fun t ht => lt_of_mem_fst ha.bounded (lcNeg_mem_fst a.lhs t ht)

theorem rowCorrect_smul {origs : List (Eqn V R)} (c : ℚ) {a : EchRow V R}
    (ha : RowCorrect origs a) :
    RowCorrect origs (eqnSmul (eqnROps (moduleOps R)) c a) := by
  constructor
  · intro x
    show sumIdxLhs origs (lcSmul c a.lhs) x = coeffOf (lcSmul c a.rhs.lhs) x
    rw [sumIdxLhs_lcSmul, coeffOf_lcSmul, ha.lhsEq]
  · show sumIdxRhs origs (lcSmul c a.lhs) = c • a.rhs.rhs
    rw [sumIdxRhs_lcSmul, ha.rhsEq]
  · exact fun t ht => lt_of_mem_fst ha.bounded (lcSmul_mem_fst c a.lhs t ht)

theorem rowCorrect_grow {origs ext : List (Eqn V R)} {row : EchRow V R}
    (h : RowCorrect origs row) : RowCorrect (origs ++ ext) row := by
  constructor
  · intro x
    rw [sumIdxLhs_append origs ext row.lhs x h.bounded]
    exact h.lhsEq x
  · rw [sumIdxRhs_append origs ext row.lhs h.bounded]
    exact h.rhsEq
  · intro t ht
    rw [List.length_append]
    exact lt_of_lt_of_le (h.bounded t ht) (Nat.le_add_right _ _)

theorem redInv_grow {origs ext : List (Eqn V R)} {re : RedEq V R}
    (h : RedInv origs re) : RedInv (origs ++ ext) re := by
  constructor
  · exact rowCorrect_grow h.combo
  · intro x
    rw [sumIdxLhs_append origs ext re.lc.lhs x h.combo.bounded]
    exact h.lhsEq x
  · rw [sumIdxRhs_append origs ext re.lc.lhs h.combo.bounded]
    exact h.rhsEq

/-- The reduction invariant holds right after the ReducedEquation
constructor: empty combination, remainder equal to the original. -/
theorem redInv_mk (origs : List (Eqn V R)) (e : Eqn V R) :
    RedInv origs (mkRedEq (moduleOps R) e) := by
  constructor
  · constructor
    · intro x
      show sumIdxLhs origs [] x = coeffOf ([] : List (V × ℚ)) x
      rw [sumIdxLhs_nil, coeffOf_nil]
    · show sumIdxRhs origs [] = (0 : R)
      rw [sumIdxRhs_nil]
    · intro t ht
      simp [mkRedEq] at ht
  · intro x
    show sumIdxLhs origs [] x + coeffOf e.lhs x = coeffOf e.lhs x
    rw [sumIdxLhs_nil, zero_add]
  · show sumIdxRhs origs [] + e.rhs = e.rhs
    rw [sumIdxRhs_nil, zero_add]

/-- One pass of ReducedEquation::reduce preserves the reduction invariant,
provided every echelon row of the system is row-correct. -/
theorem redInv_step {sys : Sys V R} (hsys : SysCorrect sys) {re re₂ : RedEq V R}
    (hstep : reduceStep? (moduleOps R) sys re = some re₂)
    (h : RedInv sys.originals re) : RedInv sys.originals re₂ := by
  rw [reduceStep?] at hstep
  split at hstep
  · exact absurd hstep (by simp)
  · rename_i var coeff rest hrem
    split at hstep
    · exact absurd hstep (by simp)
    · rename_i prow hlook
      injection hstep with hre₂
      subst hre₂
      have hprow : RowCorrect sys.originals prow :=
        hsys (var, prow) (alookup_mem var prow sys.echelon hlook)
      constructor
      · exact rowCorrect_add h.combo (rowCorrect_smul coeff hprow)
      · intro x
        show sumIdxLhs sys.originals (lcAdd re.lc.lhs (lcSmul coeff prow.lhs)) x +
          coeffOf (lcSub re.remainder.lhs (lcSmul coeff prow.rhs.lhs)) x =
          coeffOf re.original.lhs x
        rw [sumIdxLhs_lcAdd, sumIdxLhs_lcSmul, coeffOf_lcSub, coeffOf_lcSmul,
          hprow.lhsEq]
        have := h.lhsEq x
        linarith
      · show sumIdxRhs sys.originals (lcAdd re.lc.lhs (lcSmul coeff prow.lhs)) +
          (re.remainder.rhs - coeff • prow.rhs.rhs) = re.original.rhs
        rw [sumIdxRhs_lcAdd, sumIdxRhs_lcSmul, hprow.rhsEq]
        have := h.rhsEq
        rw [← this]
        abel

/-- Claim C1, reduce: every call of ReducedEquation::reduce preserves the
reduction invariant, for any fuel, provided every echelon row of the
system is row-correct. -/
theorem redInv_reduce {sys : Sys V R} (hsys : SysCorrect sys) :
    ∀ (fuel : ℕ) (re : RedEq V R), RedInv sys.originals re →
      RedInv sys.originals (reduce (moduleOps R) sys fuel re)
  | 0, _, h => h
  | fuel + 1, re, h => by
    rw [reduce]
    cases hstep : reduceStep? (moduleOps R) sys re with
    | none => exact h
    | some re₂ => exact redInv_reduce hsys fuel re₂ (redInv_step hsys hstep h)

/-- The unscaled new row of add_reduced_equation is row-correct over the
grown originals: its recorded combination is (new index, 1) minus the
reduction combination, and its RHS is the original minus the combined
equations, which the invariant says is the remainder. -/
theorem rowCorrect_pending {sys : Sys V R} {re : RedEq V R}
    (h : RedInv sys.originals re) :
    RowCorrect (sys.originals ++ [re.original]) (pendingRow (moduleOps R) sys re) := by
  have hsingle : RowCorrect (sys.originals ++ [re.original])
      (⟨lcSingle sys.originals.length 1, re.original⟩ : EchRow V R) := by
    have hlen : sys.originals.length < (sys.originals ++ [re.original]).length := by
      rw [List.length_append]
      simp
    constructor
    · intro x
      show sumIdxLhs (sys.originals ++ [re.original])
        (lcSingle sys.originals.length 1) x = coeffOf re.original.lhs x
      rw [sumIdxLhs_lcSingle _ _ _ _ hlen, one_mul, List.map_append]
      have : ((sys.originals.map Eqn.lhs) ++ ([re.original].map Eqn.lhs)).getD
          sys.originals.length [] = re.original.lhs := by
        have := getD_append_self (sys.originals.map Eqn.lhs) re.original.lhs []
        rw [List.length_map] at this
        simpa using this
      rw [this]
    · show sumIdxRhs (sys.originals ++ [re.original])
        (lcSingle sys.originals.length 1) = re.original.rhs
      rw [sumIdxRhs_lcSingle _ _ _ hlen, one_smul, List.map_append]
      have : ((sys.originals.map Eqn.rhs) ++ ([re.original].map Eqn.rhs)).getD
          sys.originals.length 0 = re.original.rhs := by
        have := getD_append_self (sys.originals.map Eqn.rhs) re.original.rhs 0
        rw [List.length_map] at this
        simpa using this
      rw [this]
    · intro t ht
      have : t ∈ lcSingle sys.originals.length (1 : ℚ) := ht
      rw [lcSingle_mem_fst sys.originals.length 1 t this]
      exact hlen
  exact rowCorrect_add (rowCorrect_neg (rowCorrect_grow h.combo)) hsingle

/-- One pass of reduce_next preserves row correctness, provided the
echelon rows it reads are row-correct. -/
theorem reduceNextStep_rowCorrect {origs : List (Eqn V R)}
    {ech : List (V × EchRow V R)} (hech : ∀ p ∈ ech, RowCorrect origs p.2)
    {e e₂ : EchRow V R} (hstep : reduceNextStep? (moduleOps R) ech e = some e₂)
    (he : RowCorrect origs e) : RowCorrect origs e₂ := by
  rw [reduceNextStep?] at hstep
  split at hstep
  · exact absurd hstep (by simp)
  · exact absurd hstep (by simp)
  · rename_i hd nextVar nextCoeff rest hrem
    split at hstep
    · exact absurd hstep (by simp)
    · rename_i rowNext hlook
      injection hstep with h₂
      subst h₂
      exact rowCorrect_sub he (rowCorrect_smul nextCoeff
        (hech (nextVar, rowNext) (alookup_mem nextVar rowNext ech hlook)))

/-- Row correctness of a row is preserved by reduce_next, for any fuel,
provided the echelon rows it reads are row-correct. -/
theorem reduceNext_rowCorrect {origs : List (Eqn V R)}
    {ech : List (V × EchRow V R)} (hech : ∀ p ∈ ech, RowCorrect origs p.2) :
    ∀ (fuel : ℕ) (e : EchRow V R) (pbn : List (V × List V)) (found : List V),
      RowCorrect origs e →
      RowCorrect origs (reduceNext (moduleOps R) ech fuel e pbn found).1
  | 0, _, _, _, he => he
  | fuel + 1, e, pbn, found, he => by
    rw [reduceNext]
    cases hstep : reduceNextStep? (moduleOps R) ech e with
    | none =>
      rw [reduceNextExit_fst]
      exact he
    | some e₂ =>
      exact reduceNext_rowCorrect hech fuel e₂ pbn found
        (reduceNextStep_rowCorrect hech hstep he)

/-- Row correctness of every echelon row is preserved by a partial
back-substitution step. -/
theorem backSubStep_correct {origs : List (Eqn V R)} (fuel : ℕ)
    (st : BState V R) (piv : V)
    (hst : ∀ p ∈ st.1, RowCorrect origs p.2) :
    ∀ p ∈ (backSubStep (moduleOps R) fuel st piv).1, RowCorrect origs p.2 := by
  rw [backSubStep]
  cases hlook : alookup piv st.1 with
  | none => exact hst
  | some prow =>
    intro p hp
    rcases aupdate_mem piv _ st.1 p hp with h | h
    · rw [h]
      exact reduceNext_rowCorrect hst fuel prow st.2.1 st.2.2
        (hst (piv, prow) (alookup_mem piv prow st.1 hlook))
    · exact hst p h

/-- Row correctness of every echelon row is preserved by the whole partial
back-substitution. -/
theorem backSub_correct {origs : List (Eqn V R)} (fuel : ℕ) (v : V)
    (st : BState V R) (hst : ∀ p ∈ st.1, RowCorrect origs p.2) :
    ∀ p ∈ (backSub (moduleOps R) fuel v st).1, RowCorrect origs p.2 := by
  rw [backSub]
  cases hlook : alookup v st.2.1 with
  | none => exact hst
  | some pivots =>
    exact foldl_preserve (fun s => ∀ p ∈ s.1, RowCorrect origs p.2)
      (backSubStep (moduleOps R) fuel)
      (fun s a hs => backSubStep_correct fuel s a hs) pivots st hst

/-- Claim C1, system growth: a successful add_reduced_equation keeps every
echelon row row-correct over the extended originals. -/
theorem sysCorrect_addRowOk {sys : Sys V R} {re : RedEq V R} (v : V) (c : ℚ)
    (fuel : ℕ) (hsys : SysCorrect sys) (h : RedInv sys.originals re) :
    SysCorrect (addRowOk (moduleOps R) fuel sys re v c) := by
  intro p hp
  have horigs : (addRowOk (moduleOps R) fuel sys re v c).originals =
      sys.originals ++ [re.original] := rfl
  rw [horigs]
  have hech₁ : ∀ q ∈ sys.echelon ++
      [(v, (reduceNext (moduleOps R) sys.echelon fuel
        (eqnSmul (eqnROps (moduleOps R)) (1 / c) (pendingRow (moduleOps R) sys re))
        sys.pivotByNext sys.foundVars).1)],
      RowCorrect (sys.originals ++ [re.original]) q.2 := by
    intro q hq
    rcases List.mem_append.1 hq with hq | hq
    · exact rowCorrect_grow (hsys q hq)
    · rw [List.mem_singleton.1 hq]
      exact reduceNext_rowCorrect
        (fun w hw => rowCorrect_grow (hsys w hw)) fuel _ _ _
        (rowCorrect_smul (1 / c) (rowCorrect_pending h))
  exact backSub_correct fuel v _ hech₁ p hp

end RowCorrectAlgebra

/-! ### The echelon structural invariant (claim C3)

No variable is the pivot of two echelon rows, and every row equation LHS
is a sorted zero-free term vector led by the pivot variable with
coefficient one.  These facts do not involve the RHS arithmetic, so they
hold uniformly in all four domains. -/

/-- The shape of an echelon row at pivot v: sorted zero-free LHS starting
with the term (v, 1). -/
structure RowForm (v : V) (row : EchRow V R) : Prop where
  sorted : LCSorted row.rhs.lhs
  nz : LCNZ row.rhs.lhs
  head : ∃ tail, row.rhs.lhs = (v, 1) :: tail

/-- Claim C3: pivot keys are pairwise distinct and every echelon row has
the canonical pivot-led shape. -/
structure EchInv (sys : Sys V R) : Prop where
  keysNodup : (sys.echelon.map Prod.fst).Nodup
  rows : ∀ p ∈ sys.echelon, RowForm p.1 p.2

/-- Structural well-formedness of a reduced equation: all three stored
term vectors are sorted and zero-free, as every LinearCombination built by
the statement layer and by the reduction algebra is. -/
structure RedWF (re : RedEq V R) : Prop where
  origSorted : LCSorted re.original.lhs
  origNZ : LCNZ re.original.lhs
  lcSorted : LCSorted re.lc.rhs.lhs
  lcNZ : LCNZ re.lc.rhs.lhs
  remSorted : LCSorted re.remainder.lhs
  remNZ : LCNZ re.remainder.lhs

theorem rowForm_fst_ge {v : V} {row : EchRow V R} (h : RowForm v row) :
    ∀ t ∈ row.rhs.lhs, v ≤ t.1 := by
  intro t ht
  obtain ⟨tail, htail⟩ := h.head
  rw [htail] at ht
  rcases List.mem_cons.1 ht with h₂ | h₂
  · rw [h₂]
  · have := h.sorted
    rw [htail] at this
    exact le_of_lt ((List.pairwise_cons.1 this).1 t h₂)

/-- One pass of reduce_next preserves the pivot-led shape of the row being
reduced: the subtracted multiple of the next-variable pivot row only
touches variables strictly above the head. -/
theorem reduceNextStep_rowForm {ops : ROps R} {ech : List (V × EchRow V R)}
    (hech : ∀ p ∈ ech, RowForm p.1 p.2) {v : V} {e e₂ : EchRow V R}
    (hstep : reduceNextStep? ops ech e = some e₂) (he : RowForm v e) :
    RowForm v e₂ := by
  rw [reduceNextStep?] at hstep
  split at hstep
  · exact absurd hstep (by simp)
  · exact absurd hstep (by simp)
  · rename_i hd nextVar nextCoeff rest hrem
    split at hstep
    · exact absurd hstep (by simp)
    · rename_i rowNext hlook
      injection hstep with h₂
      subst h₂
      have hnext : RowForm nextVar rowNext :=
        hech (nextVar, rowNext) (alookup_mem nextVar rowNext ech hlook)
      obtain ⟨tail, htail⟩ := he.head
      have hhd := htail
      rw [hrem] at hhd
      injection hhd with hh1 hh2
      have hvn : v < nextVar := by
        have hs := he.sorted
        rw [hrem] at hs
        have := (List.pairwise_cons.1 hs).1 (nextVar, nextCoeff)
          (List.mem_cons_self _ _)
        rw [hh1] at this
        exact this
      have hcoeff : nextCoeff ≠ 0 := by
        apply he.nz (nextVar, nextCoeff)
        rw [hrem]
        exact List.mem_cons_of_mem _ (List.mem_cons_self _ _)
      have hsubhigh : ∀ t ∈ lcSmul nextCoeff rowNext.rhs.lhs, v < t.1 := by
        intro t ht
        have := lcSmul_mem_fst nextCoeff rowNext.rhs.lhs t ht
        rcases List.mem_map.1 this with ⟨u, hu, hut⟩
        have := rowForm_fst_ge hnext u hu
        rw [← hut]
        exact lt_of_lt_of_le hvn this
      constructor
      · exact lcSub_sorted _ _ he.sorted
          (lcSmul_sorted nextCoeff rowNext.rhs.lhs hnext.sorted)
      · exact lcSub_nz _ _ he.nz (lcSmul_nz nextCoeff hcoeff _ hnext.nz)
      · refine ⟨mergeTerms id Neg.neg (· - ·) tail (lcSmul nextCoeff rowNext.rhs.lhs), ?_⟩
        show lcSub e.rhs.lhs (lcSmul nextCoeff rowNext.rhs.lhs) = _
        rw [htail, lcSub, mergeTerms_cons_left _ _ _ v 1 tail _ hsubhigh]
        simp only [id_eq]

/-- reduce_next preserves the pivot-led shape, for any fuel. -/
theorem reduceNext_rowForm {ops : ROps R} {ech : List (V × EchRow V R)}
    (hech : ∀ p ∈ ech, RowForm p.1 p.2) {v : V} :
    ∀ (fuel : ℕ) (e : EchRow V R) (pbn : List (V × List V)) (found : List V),
      RowForm v e → RowForm v (reduceNext ops ech fuel e pbn found).1
  | 0, _, _, _, he => he
  | fuel + 1, e, pbn, found, he => by
    rw [reduceNext]
    cases hstep : reduceNextStep? ops ech e with
    | none =>
      rw [reduceNextExit_fst]
      exact he
    | some e₂ =>
      exact reduceNext_rowForm hech fuel e₂ pbn found
        (reduceNextStep_rowForm hech hstep he)

/-- The echelon structural invariant is preserved by a back-substitution
step. -/
theorem backSubStep_echInv {ops : ROps R} (fuel : ℕ) (st : BState V R) (piv : V)
    (hkeys : (st.1.map Prod.fst).Nodup) (hrows : ∀ p ∈ st.1, RowForm p.1 p.2) :
    ((backSubStep ops fuel st piv).1.map Prod.fst).Nodup ∧
      ∀ p ∈ (backSubStep ops fuel st piv).1, RowForm p.1 p.2 := by
  rw [backSubStep]
  cases hlook : alookup piv st.1 with
  | none => exact ⟨hkeys, hrows⟩
  | some prow =>
    constructor
    · rw [aupdate_keys]
      exact hkeys
    · intro p hp
      rcases aupdate_mem piv _ st.1 p hp with h | h
      · rw [h]
        exact reduceNext_rowForm hrows fuel prow st.2.1 st.2.2
          (hrows (piv, prow) (alookup_mem piv prow st.1 hlook))
      · exact hrows p h

/-- The echelon structural invariant is preserved by the whole partial
back-substitution. -/
theorem backSub_echInv {ops : ROps R} (fuel : ℕ) (v : V) (st : BState V R)
    (hkeys : (st.1.map Prod.fst).Nodup) (hrows : ∀ p ∈ st.1, RowForm p.1 p.2) :
    ((backSub ops fuel v st).1.map Prod.fst).Nodup ∧
      ∀ p ∈ (backSub ops fuel v st).1, RowForm p.1 p.2 := by
  rw [backSub]
  cases hlook : alookup v st.2.1 with
  | none => exact ⟨hkeys, hrows⟩
  | some pivots =>
    exact foldl_preserve
      (fun s => ((s.1.map Prod.fst).Nodup ∧ ∀ p ∈ s.1, RowForm p.1 p.2))
      (backSubStep ops fuel)
      (fun s a hs => backSubStep_echInv fuel s a hs.1 hs.2) pivots st ⟨hkeys, hrows⟩

/-- Claim C3, insertion: a successful add_reduced_equation preserves the
echelon invariant, in every domain. -/
theorem echInv_addReduced {ops : ROps R} {isS : RedEq V R → Bool} {fuel : ℕ}
    {sys sys₂ : Sys V R} {re : RedEq V R} (hsys : EchInv sys) (hwf : RedWF re)
    (hok : addReducedEquation ops isS fuel sys re = .ok sys₂) : EchInv sys₂ := by
  rw [addReducedEquation] at hok
  split at hok
  · injection hok with h
    rw [← h]
    exact hsys
  · split at hok
    · exact absurd hok (by simp)
    · split at hok
      · exact absurd hok (by simp)
      · rename_i v c pendTail hpend
        split at hok
        · exact absurd hok (by simp)
        · rename_i hnotin
          injection hok with h
          rw [← h]
          have hvnone : alookup v sys.echelon = none :=
            Option.not_isSome_iff_eq_none.1 hnotin
          have hpendSorted : LCSorted (pendingRow ops sys re).rhs.lhs := by
            show LCSorted (lcAdd (lcNeg re.lc.rhs.lhs) re.original.lhs)
            exact lcAdd_sorted _ _ (lcNeg_sorted _ hwf.lcSorted) hwf.origSorted
          have hpendNZ : LCNZ (pendingRow ops sys re).rhs.lhs := by
            show LCNZ (lcAdd (lcNeg re.lc.rhs.lhs) re.original.lhs)
            exact lcAdd_nz _ _ (lcNeg_nz _ hwf.lcNZ) hwf.origNZ
          have hc : c ≠ 0 := by
            apply hpendNZ (v, c)
            rw [hpend]
            exact List.mem_cons_self _ _
          have hscaled : RowForm v
              (eqnSmul (eqnROps ops) (1 / c) (pendingRow ops sys re)) := by
            have hinv : (1 : ℚ) / c ≠ 0 := one_div_ne_zero hc
            constructor
            · exact lcSmul_sorted _ _ hpendSorted
            · exact lcSmul_nz _ hinv _ hpendNZ
            · refine ⟨lcSmul (1 / c) pendTail, ?_⟩
              show lcSmul (1 / c) (pendingRow ops sys re).rhs.lhs = _
              rw [hpend, lcSmul_cons _ hinv]
              congr 2
              field_simp
          have hech₁keys :
              ((sys.echelon ++ [(v, (reduceNext ops sys.echelon fuel
                (eqnSmul (eqnROps ops) (1 / c) (pendingRow ops sys re))
                sys.pivotByNext sys.foundVars).1)]).map Prod.fst).Nodup := by
            rw [List.map_append]
            rw [List.nodup_append]
            refine ⟨hsys.keysNodup, List.nodup_singleton v, ?_⟩
            intro k hk hkv
            rw [List.mem_singleton.1 hkv] at hk
            exact (alookup_eq_none v sys.echelon).1 hvnone hk
          have hech₁rows : ∀ p ∈ sys.echelon ++
              [(v, (reduceNext ops sys.echelon fuel
                (eqnSmul (eqnROps ops) (1 / c) (pendingRow ops sys re))
                sys.pivotByNext sys.foundVars).1)], RowForm p.1 p.2 := by
            intro p hp
            rcases List.mem_append.1 hp with h₂ | h₂
            · exact hsys.rows p h₂
            · rw [List.mem_singleton.1 h₂]
              exact reduceNext_rowForm hsys.rows fuel _ _ _ hscaled
          have hmain := @backSub_echInv V _ R ops fuel v
            (sys.echelon ++ [(v, (reduceNext ops sys.echelon fuel
              (eqnSmul (eqnROps ops) (1 / c) (pendingRow ops sys re))
              sys.pivotByNext sys.foundVars).1)],
             (reduceNext ops sys.echelon fuel
              (eqnSmul (eqnROps ops) (1 / c) (pendingRow ops sys re))
              sys.pivotByNext sys.foundVars).2.1,
             (reduceNext ops sys.echelon fuel
              (eqnSmul (eqnROps ops) (1 / c) (pendingRow ops sys re))
              sys.pivotByNext sys.foundVars).2.2)
            hech₁keys hech₁rows
          exact ⟨hmain.1, hmain.2⟩

/-! ### Reachable systems -/

/-- Systems reachable by any sequence of add_reduced_equation calls on
structurally well-formed reduced equations, starting from the empty
system.  Every run of the program stays inside this relation: statement
equations are built from sorted zero-free combinations, and reduction
preserves that shape. -/
inductive SysReach {V R : Type} [LinearOrder V] (ops : ROps R)
    (isS : RedEq V R → Bool) : Sys V R → Prop where
  | empty : SysReach ops isS sysEmpty
  | step {sys sys₂ : Sys V R} {re : RedEq V R} {fuel : ℕ} :
      SysReach ops isS sys → RedWF re →
      addReducedEquation ops isS fuel sys re = .ok sys₂ →
      SysReach ops isS sys₂

/-- Systems reachable in a rational-module domain, where each inserted
reduced equation satisfies its reduction invariant against the current
system, as every equation produced by construct-then-reduce does. -/
inductive SysReachC {V R : Type} [LinearOrder V] [AddCommGroup R] [Module ℚ R]
    (isS : RedEq V R → Bool) : Sys V R → Prop where
  | empty : SysReachC isS sysEmpty
  | step {sys sys₂ : Sys V R} {re : RedEq V R} {fuel : ℕ} :
      SysReachC isS sys → RedInv sys.originals re →
      addReducedEquation (moduleOps R) isS fuel sys re = .ok sys₂ →
      SysReachC isS sys₂

section ModulePreservation

variable {R : Type} [AddCommGroup R] [Module ℚ R]

/-- A successful add_reduced_equation either skips (solved equation) or
appends exactly the original equation to the originals. -/
theorem addReduced_originals {ops : ROps R} {isS : RedEq V R → Bool} {fuel : ℕ}
    {sys sys₂ : Sys V R} {re : RedEq V R}
    (hok : addReducedEquation ops isS fuel sys re = .ok sys₂) :
    sys₂ = sys ∨ sys₂.originals = sys.originals ++ [re.original] := by
  rw [addReducedEquation] at hok
  split at hok
  · injection hok with h
    exact Or.inl h.symm
  · split at hok
    · exact absurd hok (by simp)
    · split at hok
      · exact absurd hok (by simp)
      · split at hok
        · exact absurd hok (by simp)
        · injection hok with h
          rw [← h]
          exact Or.inr rfl

/-- Row correctness of all echelon rows is preserved by a successful
add_reduced_equation whose equation satisfies the reduction invariant. -/
theorem sysCorrect_addReduced {isS : RedEq V R → Bool} {fuel : ℕ}
    {sys sys₂ : Sys V R} {re : RedEq V R}
    (hsys : SysCorrect sys) (hinv : RedInv sys.originals re)
    (hok : addReducedEquation (moduleOps R) isS fuel sys re = .ok sys₂) :
    SysCorrect sys₂ := by
  rw [addReducedEquation] at hok
  split at hok
  · injection hok with h
    rw [← h]
    exact hsys
  · split at hok
    · exact absurd hok (by simp)
    · split at hok
      · exact absurd hok (by simp)
      · rename_i v c tail hpend
        split at hok
        · exact absurd hok (by simp)
        · injection hok with h
          rw [← h]
          exact sysCorrect_addRowOk v c fuel hsys hinv

/-- Every reachable system has row-correct echelon rows. -/
theorem sysCorrect_of_reach {isS : RedEq V R → Bool} {sys : Sys V R}
    (h : SysReachC isS sys) : SysCorrect sys := by
  induction h with
  | empty => intro p hp; simp [sysEmpty] at hp
  | step hreach hinv hok ih => exact sysCorrect_addReduced ih hinv hok

end ModulePreservation

end Yuclid

namespace Yuclid

/-! ## Concrete Ang-domain run used by claims C1, C2 and C3

One slope-angle variable, index 0.  The first equation (1/2)x = 3/4 is
added to an empty Ang system: forming its echelon row rescales by 2, and
2 times AddCircle(3/4) wraps to AddCircle(1/2), so the row reads x = 1/2
while twice the original right-hand side reads 3/2.  Reducing the second
equation (1/2)x = 1/4 against that row then subtracts (1/2) times
AddCircle(1/2) = AddCircle(1/4) and the remainder collapses to 0 = 0,
even though the recorded combination of the original rows evaluates to
3/4 on the right-hand side, not 1/4. -/

/-- The first original Ang equation, (1/2)x = 3/4. -/
def e0ex : Eqn ℕ ℚ := ⟨[(0, 1/2)], 3/4⟩

/-- The second Ang equation, (1/2)x = 1/4. -/
def e1ex : Eqn ℕ ℚ := ⟨[(0, 1/2)], 1/4⟩

/-- The first equation constructed and reduced against the empty system
(no pivot exists, so reduction stops at once). -/
def re0ex : RedEq ℕ ℚ := reduce acOps sysEmpty 1 (mkRedEq acOps e0ex)

/-- The Ang system after inserting the first equation: originals [e0ex],
echelon row x = AddCircle(1/2) recorded as 2 times row 0, and x reported
newly solved. -/
def sys1ex : Sys ℕ ℚ :=
  ⟨[e0ex], [(0, ⟨[(0, 2)], ⟨[(0, 1)], 1/2⟩⟩)], [], [0]⟩

/-- The second equation constructed and fully reduced against sys1ex: its
linear combination is 1 times row 0 and its remainder is the empty
equation 0 = 0. -/
def re1ex : RedEq ℕ ℚ := reduce acOps sys1ex 2 (mkRedEq acOps e1ex)

end Yuclid

namespace Yuclid

/-- C1 (corrected): in the rational-module domains (Len, Len squared and
Ratio) the reduction invariant holds exactly: right after construction,
after every reduce() call against a system all of whose echelon rows are
row-correct (which every system reachable by add_reduced_equation calls
is), and it is stable when the system gains rows.  The identity is the
RedInv field pair lhsEq / rhsEq: the original equation equals the sum over
the recorded (row index, coefficient) terms of coefficient times the
original row equation, plus the remainder, coefficientwise on the LHS and
exactly on the RHS.  In the Ang domain the RHS identity can fail, see the
counterexample. -/
theorem C1_reduction_invariant {V R : Type} [LinearOrder V] [AddCommGroup R]
    [Module ℚ R] (isS : RedEq V R → Bool) :
    (∀ (origs : List (Eqn V R)) (e : Eqn V R),
      RedInv origs (mkRedEq (moduleOps R) e)) ∧
    (∀ sys : Sys V R, SysReachC isS sys → SysCorrect sys) ∧
    (∀ (sys : Sys V R) (fuel : ℕ) (re : RedEq V R), SysCorrect sys →
      RedInv sys.originals re →
      RedInv sys.originals (reduce (moduleOps R) sys fuel re)) ∧
    (∀ (origs ext : List (Eqn V R)) (re : RedEq V R),
      RedInv origs re → RedInv (origs ++ ext) re) :=
  ⟨fun origs e => redInv_mk origs e,
   fun _ h => sysCorrect_of_reach h,
   fun _ fuel re hs hr => redInv_reduce hs fuel re hr,
   fun _ _ _ h => redInv_grow h⟩

/-- C1 counterexample: the Ang instance refuting the claim as stated.  The
system sys1ex is reached from the empty Ang system by one successful
add_reduced_equation call on the reduced equation of (1/2)x = 3/4, and
re1ex is the reduced equation of (1/2)x = 1/4 constructed against it and
fully reduced: its recorded linear combination is exactly 1 times original
row 0 and its remainder is the empty equation, yet row 0 contributes
AddCircle right-hand side 3/4, so the claimed identity
original RHS = sum of coefficient times row RHS + remainder RHS reads
1/4 = 3/4, which is false: the branch chosen by rational multiplication on
the circle broke the identity. -/
theorem C1_counterexample :
    addReducedEquation acOps (isSolvedAng ([] : List (Eqn ℕ ℚ))) 2 sysEmpty re0ex =
      .ok sys1ex ∧
    re1ex = reduce acOps sys1ex 2 (mkRedEq acOps e1ex) ∧
    re1ex.lc.lhs = [(0, 1)] ∧
    re1ex.remainder = ⟨[], 0⟩ ∧
    acOps.add (acOps.smul 1 e0ex.rhs) re1ex.remainder.rhs ≠ re1ex.original.rhs := by
  refine ⟨by with_unfolding_all decide, rfl, by with_unfolding_all decide,
    by with_unfolding_all decide, by with_unfolding_all decide⟩

/-- C2 (corrected): the solved test.  In the Len, Len squared and Ratio
domains is_solved is the empty-remainder test.  In the Ang domain the code
returns true when the remainder LHS is empty and either the raw remainder
RHS is zero (an early return the claim omits) or the RHS recomputed with
integer multipliers (common denominator of the linear combination) is zero
mod 1; the warning is logged, and false returned with no fatal error,
exactly when the LHS is empty, the raw RHS is nonzero and the recomputed
RHS is nonzero. -/
theorem C2_solved_test {V R : Type} [LinearOrder V] [DecidableEq R]
    (ops : ROps R) (origs : List (Eqn V ℚ)) (re : RedEq V R) (rea : RedEq V ℚ) :
    (isSolvedGen ops re = true ↔
      re.remainder.lhs = [] ∧ re.remainder.rhs = ops.zero) ∧
    (isSolvedAng origs rea = true ↔
      rea.remainder.lhs = [] ∧
        (rea.remainder.rhs = 0 ∨ angMultipliedRhs origs rea = 0)) ∧
    (isSolvedAngWarns origs rea = true ↔
      rea.remainder.lhs = [] ∧ rea.remainder.rhs ≠ 0 ∧
        angMultipliedRhs origs rea ≠ 0) ∧
    (isSolvedAngWarns origs rea = true → isSolvedAng origs rea = false) := by
  refine ⟨?_, ?_, ?_, ?_⟩
  · rw [isSolvedGen, eqnIsEmpty]
    simp [List.isEmpty_iff]
  · rw [isSolvedAng]
    cases h : rea.remainder.lhs with
    | cons t l => simp [h]
    | nil =>
      by_cases hz : rea.remainder.rhs = 0 <;> simp [hz]
  · rw [isSolvedAngWarns]
    cases h : rea.remainder.lhs with
    | cons t l => simp [h]
    | nil =>
      by_cases hz : rea.remainder.rhs = 0 <;> simp [hz]
  · rw [isSolvedAng, isSolvedAngWarns]
    cases h : rea.remainder.lhs with
    | cons t l => simp
    | nil =>
      by_cases hz : rea.remainder.rhs = 0 <;> simp [hz]

/-- C2 counterexample: at the reachable Ang state re1ex bound to sys1ex
(see C1), the remainder LHS is empty and its raw RHS is zero, so is_solved
returns true by the early return, yet the RHS multiplied through by the
common denominator of the linear combination coefficients is 1/2, not zero
mod 1 — so the claimed characterization (proved iff the multiplied RHS is
zero) is false, and contrary to the claim no warning is logged in this
case either. -/
theorem C2_counterexample :
    isSolvedAng sys1ex.originals re1ex = true ∧
    angMultipliedRhs sys1ex.originals re1ex ≠ 0 ∧
    isSolvedAngWarns sys1ex.originals re1ex = false := by
  refine ⟨by with_unfolding_all decide, by with_unfolding_all decide,
    by with_unfolding_all decide⟩

/-- C3 (confirmed): across every sequence of add_reduced_equation calls
starting from the empty system, in every domain: no variable is the pivot
of two distinct echelon rows (the pivot keys are pairwise distinct), and
every echelon row equation LHS is led by its pivot variable with
coefficient exactly one (with the sorted zero-free shape that makes the
leading term meaningful) — preserved both by insertion of a new row and by
the partial back-substitution. -/
theorem C3_echelon_invariant {V R : Type} [LinearOrder V] (ops : ROps R)
    (isS : RedEq V R → Bool) (sys : Sys V R) (h : SysReach ops isS sys) :
    EchInv sys := by
  induction h with
  | empty =>
    exact ⟨List.nodup_nil, fun p hp => by simp [sysEmpty] at hp⟩
  | step hreach hwf hok ih => exact echInv_addReduced ih hwf hok

/-- C3 witness: the invariant holds at the concrete one-row Ang system
sys1ex reached by one add_reduced_equation call. -/
theorem C3_echelon_invariant_witness : EchInv sys1ex :=
  C3_echelon_invariant acOps (isSolvedAng ([] : List (Eqn ℕ ℚ))) sys1ex
    (@SysReach.step ℕ ℚ _ acOps (isSolvedAng ([] : List (Eqn ℕ ℚ)))
      sysEmpty sys1ex re0ex 2 SysReach.empty
      (by constructor <;> simp only [LCSorted, LCNZ] <;> with_unfolding_all decide)
      (by with_unfolding_all decide))

/-- C4 (confirmed): add_reduced_equation error handling.  A solved (exact
duplicate) equation is skipped silently with the system returned
unchanged; an unsolved equation with empty remainder LHS raises the fatal
error "Proved contradiction in AR" before any state is modified (the error
is raised before the row append, so no row is appended); otherwise, in the
successful case, exactly the new original row is appended. -/
theorem C4_add_error_handling {V R : Type} [LinearOrder V]
    (ops : ROps R) (isS : RedEq V R → Bool) (fuel : ℕ) (sys : Sys V R)
    (re : RedEq V R) :
    (isS re = true → addReducedEquation ops isS fuel sys re = .ok sys) ∧
    (isS re = false → re.remainder.lhs = [] →
      addReducedEquation ops isS fuel sys re =
        .error "Proved contradiction in AR") ∧
    (∀ (v : V) (c : ℚ) (tail : List (V × ℚ)), isS re = false →
      re.remainder.lhs ≠ [] →
      (pendingRow ops sys re).rhs.lhs = (v, c) :: tail →
      alookup v sys.echelon = none →
      addReducedEquation ops isS fuel sys re = .ok (addRowOk ops fuel sys re v c) ∧
      (addRowOk ops fuel sys re v c).originals = sys.originals ++ [re.original]) := by
  refine ⟨?_, ?_, ?_⟩
  · intro h
    rw [addReducedEquation, if_pos h]
  · intro h hrem
    rw [addReducedEquation, if_neg (by rw [h]; exact Bool.false_ne_true),
      if_pos (by rw [hrem]; rfl)]
  · intro v c tail h hrem hpend hlook
    refine ⟨?_, rfl⟩
    rw [addReducedEquation, if_neg (by rw [h]; exact Bool.false_ne_true),
      if_neg (by rw [List.isEmpty_iff]; exact hrem)]
    simp only [hpend, hlook, Option.isSome_none, Bool.false_eq_true, if_false]

end Yuclid

namespace Yuclid

/-
### Theorem application state machine

Shallow embedding of `solver/theorem_application.cpp`
(`TheoremApplication::advance_proof`), `solver/ddar_solver.cpp`
(`DDARSolver::advance_theorem`, `DDARSolver::establish_statement`) and the
proof states of `solver/statement_proof.hpp`.  Statement proofs are
identified by their index in the solver's statement table, so the table is
a function from indices to proof states.  `StatementProof::make_progress`
(which consults the four AR systems) is abstracted as a function on that
table constrained by the contract `MPContract` below.
-/

/-- The proof states of a `StatementProof` (`solver/statement_proof.hpp`):
not yet proved, or proved by assumption, by reflexivity, numerically, by
one of the four AR engines, or by the theorem application with the
recorded index. -/
inductive SPState where
  | notProved
  | byAssumption
  | byRefl
  | numerical
  | byARDist
  | byARSquaredDist
  | byARRatio
  | byARAngle
  | byTheorem (idx : ℕ)
deriving DecidableEq

/-- `StatementProof::is_proved`: the state is anything but `NOT_PROVED`. -/
def SPState.isProved : SPState → Bool
  | .notProved => false
  | _ => true

/-- The four states proved by an AR engine (`PROVED_BY_AR_*`), the only
states `StatementProof::make_progress` can move a statement to. -/
def SPState.isAR : SPState → Bool
  | .byARDist => true
  | .byARSquaredDist => true
  | .byARRatio => true
  | .byARAngle => true
  | _ => false

/-- `TheoremApplicationState` (`solver/theorem_application.hpp`). -/
inductive TAState where
  | pending
  | proved
  | discarded
deriving DecidableEq

/-- A theorem application, reduced to what `advance_proof` reads and
writes: the statement indices of its hypotheses and conclusions, and the
state machine state. -/
structure TApp where
  hyps : List ℕ
  concls : List ℕ
  state : TAState
deriving DecidableEq

/-- The solver's statement-proof table: the proof state of every
statement index. -/
def World : Type := ℕ → SPState

/-- The contract of `StatementProof::make_progress` as seen from the
theorem-application layer (`solver/statement_proof.cpp`): it returns at
once on an already proved statement, changes no table entry other than
the one it was called on, and can move that entry only from `NOT_PROVED`
to one of the four AR-proved states. -/
structure MPContract (mp : World → ℕ → World) : Prop where
  frame : ∀ w i j, j ≠ i → mp w i j = w j
  provedStable : ∀ w i, (w i).isProved = true → mp w i = w
  arOnly : ∀ w i, mp w i i = w i ∨ (w i = .notProved ∧ (mp w i i).isAR = true)

/-- The conclusion pass of `TheoremApplication::advance_proof`: call
`make_progress` on every conclusion in order, conjoining the `is_proved`
results. -/
def progressConcls (mp : World → ℕ → World) (w : World) (l : List ℕ) :
    World × Bool :=
  l.foldl (fun acc i => (mp acc.1 i, acc.2 && ((mp acc.1 i) i).isProved))
    (w, true)

/-- The hypothesis pass of `TheoremApplication::advance_proof`: call
`make_progress` on each hypothesis in order, stopping at the first one
that is still unproved (the source loop breaks early). -/
def progressHyps (mp : World → ℕ → World) : World → List ℕ → World × Bool
  | w, [] => (w, true)
  | w, i :: rest =>
    if ((mp w i) i).isProved then progressHyps mp (mp w i) rest
    else (mp w i, false)

/-- `TheoremApplication::advance_proof`: return unless `PENDING`; make
progress on all conclusions and move to `DISCARDED` if they are all
proved; otherwise make progress on the hypotheses in order and move to
`PROVED` if all of them get proved. -/
def advanceProof (mp : World → ℕ → World) (w : World) (ta : TApp) :
    World × TApp :=
  if ta.state ≠ .pending then (w, ta)
  else if (progressConcls mp w ta.concls).2 then
    ((progressConcls mp w ta.concls).1, { ta with state := .discarded })
  else if (progressHyps mp (progressConcls mp w ta.concls).1 ta.hyps).2 then
    ((progressHyps mp (progressConcls mp w ta.concls).1 ta.hyps).1,
      { ta with state := .proved })
  else ((progressHyps mp (progressConcls mp w ta.concls).1 ta.hyps).1, ta)

/-- `DDARSolver::establish_statement`: skip an already proved conclusion;
otherwise give `make_progress` one more chance and, if the statement is
still unproved, record it as proved by theorem application `idx`. -/
def establish (mp : World → ℕ → World) (w : World) (i idx : ℕ) : World :=
  if (w i).isProved then w
  else if ((mp w i) i).isProved then mp w i
  else fun j => if j = i then .byTheorem idx else (mp w i) j

/-- `DDARSolver::advance_theorem`: skip non-`PENDING` applications; run
`advance_proof`; if the application became `PROVED`, establish every
conclusion with this application's index. -/
def advanceTheorem (mp : World → ℕ → World) (w : World) (ta : TApp)
    (idx : ℕ) : World × TApp :=
  if ta.state ≠ .pending then (w, ta)
  else if (advanceProof mp w ta).2.state = .proved then
    ((advanceProof mp w ta).2.concls.foldl
      (fun w₂ i => establish mp w₂ i idx) (advanceProof mp w ta).1,
      (advanceProof mp w ta).2)
  else advanceProof mp w ta

/-- `make_progress` never marks a statement as proved by a theorem. -/
theorem mp_byTheorem {mp : World → ℕ → World} (hmp : MPContract mp)
    (w : World) (i j k : ℕ) (h : mp w i j = .byTheorem k) :
    w j = .byTheorem k := by
  by_cases hji : j = i
  · subst hji
    rcases hmp.arOnly w j with h₂ | ⟨_, h₂⟩
    · rw [← h₂]; exact h
    · rw [h] at h₂
      exact absurd h₂ (by simp [SPState.isAR])
  · rw [← hmp.frame w i j hji]; exact h

/-- `make_progress` never unproves a statement. -/
theorem mp_proved_mono {mp : World → ℕ → World} (hmp : MPContract mp)
    (w : World) (i j : ℕ) (h : (w j).isProved = true) :
    ((mp w i) j).isProved = true := by
  by_cases hji : j = i
  · subst hji
    rcases hmp.arOnly w j with h₂ | ⟨h₂, _⟩
    · rw [h₂]; exact h
    · rw [h₂] at h
      exact absurd h (by simp [SPState.isProved])
  · rw [hmp.frame w i j hji]; exact h

/-- The conclusion pass never marks a statement as proved by a theorem
(auxiliary form over the raw fold). -/
theorem progressConclsAux_byTheorem {mp : World → ℕ → World}
    (hmp : MPContract mp) :
    ∀ (l : List ℕ) (w : World) (b : Bool) (j k : ℕ),
      (l.foldl (fun acc i => (mp acc.1 i, acc.2 && ((mp acc.1 i) i).isProved))
        (w, b)).1 j = .byTheorem k →
      w j = .byTheorem k
  | [], _, _, _, _, h => h
  | i :: rest, w, b, j, k, h =>
    mp_byTheorem hmp w i j k
      (progressConclsAux_byTheorem hmp rest (mp w i)
        (b && ((mp w i) i).isProved) j k h)

/-- The conclusion pass never marks a statement as proved by a theorem. -/
theorem progressConcls_byTheorem {mp : World → ℕ → World}
    (hmp : MPContract mp) (l : List ℕ) (w : World) (j k : ℕ)
    (h : (progressConcls mp w l).1 j = .byTheorem k) : w j = .byTheorem k :=
  progressConclsAux_byTheorem hmp l w true j k h

/-- The hypothesis pass never marks a statement as proved by a theorem. -/
theorem progressHyps_byTheorem {mp : World → ℕ → World}
    (hmp : MPContract mp) :
    ∀ (l : List ℕ) (w : World) (j k : ℕ),
      (progressHyps mp w l).1 j = .byTheorem k → w j = .byTheorem k
  | [], _, _, _, h => h
  | i :: rest, w, j, k, h => by
    rw [progressHyps] at h
    split at h
    · exact mp_byTheorem hmp w i j k
        (progressHyps_byTheorem hmp rest (mp w i) j k h)
    · exact mp_byTheorem hmp w i j k h

/-- `establish_statement` leaves its statement proved. -/
theorem establish_self {mp : World → ℕ → World} (w : World) (i idx : ℕ) :
    ((establish mp w i idx) i).isProved = true := by
  rw [establish]
  split
  · assumption
  · split
    · assumption
    · show (if i = i then SPState.byTheorem idx else (mp w i) i).isProved = true
      rw [if_pos rfl]
      rfl

/-- `establish_statement` never unproves a statement. -/
theorem establish_mono {mp : World → ℕ → World} (hmp : MPContract mp)
    (w : World) (i idx j : ℕ) (h : (w j).isProved = true) :
    ((establish mp w i idx) j).isProved = true := by
  rw [establish]
  split
  · exact h
  · split
    · exact mp_proved_mono hmp w i j h
    · show (if j = i then SPState.byTheorem idx else (mp w i) j).isProved = true
      by_cases hji : j = i
      · rw [if_pos hji]; rfl
      · rw [if_neg hji]
        exact mp_proved_mono hmp w i j h

/-- The only statement `establish_statement` can newly mark as proved by
a theorem is its own statement, with its own application index. -/
theorem establish_byTheorem {mp : World → ℕ → World} (hmp : MPContract mp)
    (w : World) (i idx j k : ℕ)
    (h : (establish mp w i idx) j = .byTheorem k) :
    w j = .byTheorem k ∨ (j = i ∧ k = idx) := by
  rw [establish] at h
  split at h
  · exact Or.inl h
  · split at h
    · exact Or.inl (mp_byTheorem hmp w i j k h)
    · have h₂ : (if j = i then SPState.byTheorem idx else (mp w i) j)
          = SPState.byTheorem k := h
      by_cases hji : j = i
      · rw [if_pos hji] at h₂
        injection h₂ with hik
        exact Or.inr ⟨hji, hik.symm⟩
      · rw [if_neg hji] at h₂
        exact Or.inl (mp_byTheorem hmp w i j k h₂)

/-- A fold of `establish_statement` calls never unproves a statement. -/
theorem establishFold_mono {mp : World → ℕ → World} (hmp : MPContract mp)
    (idx : ℕ) :
    ∀ (l : List ℕ) (w : World) (j : ℕ), (w j).isProved = true →
      ((l.foldl (fun w₂ i => establish mp w₂ i idx) w) j).isProved = true
  | [], _, _, h => h
  | i :: rest, w, j, h =>
    establishFold_mono hmp idx rest (establish mp w i idx) j
      (establish_mono hmp w i idx j h)

/-- After establishing every statement in a list, each of them is
proved. -/
theorem establishFold_proved {mp : World → ℕ → World} (hmp : MPContract mp)
    (idx : ℕ) :
    ∀ (l : List ℕ) (w : World) (c : ℕ), c ∈ l →
      ((l.foldl (fun w₂ i => establish mp w₂ i idx) w) c).isProved = true
  | [], _, c, hc => absurd hc (List.not_mem_nil c)
  | i :: rest, w, c, hc => by
    rcases List.mem_cons.mp hc with hci | hcr
    · subst hci
      exact establishFold_mono hmp idx rest _ c (establish_self w c idx)
    · exact establishFold_proved hmp idx rest _ c hcr

/-- The only statements a fold of `establish_statement` calls can newly
mark as proved by a theorem are the listed ones, with index `idx`. -/
theorem establishFold_byTheorem {mp : World → ℕ → World}
    (hmp : MPContract mp) (idx : ℕ) :
    ∀ (l : List ℕ) (w : World) (j k : ℕ),
      (l.foldl (fun w₂ i => establish mp w₂ i idx) w) j = .byTheorem k →
      w j = .byTheorem k ∨ (j ∈ l ∧ k = idx)
  | [], _, _, _, h => Or.inl h
  | i :: rest, w, j, k, h => by
    rcases establishFold_byTheorem hmp idx rest (establish mp w i idx) j k h
      with h₂ | ⟨hj, hk⟩
    · rcases establish_byTheorem hmp w i idx j k h₂ with h₃ | ⟨hji, hk⟩
      · exact Or.inl h₃
      · exact Or.inr ⟨by rw [hji]; exact List.mem_cons_self _ _, hk⟩
    · exact Or.inr ⟨List.mem_cons_of_mem i hj, hk⟩

end Yuclid

namespace Yuclid

/-- **C5.** `advance` on a theorem application does nothing unless the
state is `PENDING` (so `PROVED` and `DISCARDED` are terminal); when
`PENDING`, the conclusion pass runs `make_progress` on every conclusion
first and, if every conclusion is then proved, the application moves to
`DISCARDED` with no statement newly marked as proved by a theorem;
otherwise, if the hypothesis pass proves every hypothesis, the
application moves to `PROVED`, every conclusion ends up proved, and the
only statements newly marked as proved by a theorem are conclusions of
this application, marked with this application's index; if some
hypothesis stays unproved, the application is returned unchanged. -/
theorem C5_advance_theorem {mp : World → ℕ → World} (hmp : MPContract mp)
    (w : World) (ta : TApp) (idx : ℕ) :
    (ta.state ≠ .pending → advanceTheorem mp w ta idx = (w, ta)) ∧
    (ta.state = .pending →
      (((progressConcls mp w ta.concls).2 = true →
        advanceTheorem mp w ta idx =
          ((progressConcls mp w ta.concls).1,
            { ta with state := .discarded }) ∧
        ∀ j k, (advanceTheorem mp w ta idx).1 j = .byTheorem k →
          w j = .byTheorem k) ∧
      ((progressConcls mp w ta.concls).2 = false →
        (progressHyps mp (progressConcls mp w ta.concls).1 ta.hyps).2 = true →
        (advanceTheorem mp w ta idx).2 = { ta with state := .proved } ∧
        (∀ c ∈ ta.concls,
          ((advanceTheorem mp w ta idx).1 c).isProved = true) ∧
        (∀ j k, (advanceTheorem mp w ta idx).1 j = .byTheorem k →
          w j = .byTheorem k ∨ (j ∈ ta.concls ∧ k = idx))) ∧
      ((progressConcls mp w ta.concls).2 = false →
        (progressHyps mp (progressConcls mp w ta.concls).1 ta.hyps).2 = false →
        advanceTheorem mp w ta idx =
          ((progressHyps mp (progressConcls mp w ta.concls).1 ta.hyps).1,
            ta)))) := by
  constructor
  · intro h
    rw [advanceTheorem, if_pos h]
  · intro hpend
    refine ⟨?_, ?_, ?_⟩
    · intro hc
      have hAP : advanceProof mp w ta =
          ((progressConcls mp w ta.concls).1,
            { ta with state := .discarded }) := by
        rw [advanceProof, if_neg (not_not_intro hpend), if_pos hc]
      have hAT : advanceTheorem mp w ta idx =
          ((progressConcls mp w ta.concls).1,
            { ta with state := .discarded }) := by
        rw [advanceTheorem, if_neg (not_not_intro hpend), hAP]
        simp
      refine ⟨hAT, ?_⟩
      intro j k hj
      rw [hAT] at hj
      exact progressConcls_byTheorem hmp ta.concls w j k hj
    · intro hc hh
      have hAP : advanceProof mp w ta =
          ((progressHyps mp (progressConcls mp w ta.concls).1 ta.hyps).1,
            { ta with state := .proved }) := by
        rw [advanceProof, if_neg (not_not_intro hpend),
          if_neg (by rw [hc]; exact Bool.false_ne_true), if_pos hh]
      have hAT : advanceTheorem mp w ta idx =
          (ta.concls.foldl (fun w₂ i => establish mp w₂ i idx)
            (progressHyps mp (progressConcls mp w ta.concls).1 ta.hyps).1,
            { ta with state := .proved }) := by
        rw [advanceTheorem, if_neg (not_not_intro hpend), hAP]
        simp
      refine ⟨by rw [hAT], ?_, ?_⟩
      · intro c hcmem
        rw [hAT]
        exact establishFold_proved hmp idx ta.concls _ c hcmem
      · intro j k hj
        rw [hAT] at hj
        rcases establishFold_byTheorem hmp idx ta.concls _ j k hj
          with h₂ | ⟨hjmem, hk⟩
        · exact Or.inl (progressConcls_byTheorem hmp ta.concls w j k
            (progressHyps_byTheorem hmp ta.hyps _ j k h₂))
        · exact Or.inr ⟨hjmem, hk⟩
    · intro hc hh
      have hAP : advanceProof mp w ta =
          ((progressHyps mp (progressConcls mp w ta.concls).1 ta.hyps).1,
            ta) := by
        rw [advanceProof, if_neg (not_not_intro hpend),
          if_neg (by rw [hc]; exact Bool.false_ne_true),
          if_neg (by rw [hh]; exact Bool.false_ne_true)]
      rw [advanceTheorem, if_neg (not_not_intro hpend), hAP]
      simp [hpend]

/-- The everywhere-unproved statement table. -/
def wEx : World := fun _ => SPState.notProved

/-- A `make_progress` that never makes progress; it satisfies
`MPContract`. -/
def mpId : World → ℕ → World := fun w _ => w

/-- Witness for C5: on a `PROVED` (hence terminal) application,
`advance_theorem` returns the table and the application unchanged. -/
theorem C5_advance_theorem_witness :
    advanceTheorem mpId wEx ⟨[0], [1], TAState.proved⟩ 0 =
      (wEx, ⟨[0], [1], TAState.proved⟩) :=
  (@C5_advance_theorem mpId
    ⟨fun _ _ _ _ => rfl, fun _ _ _ => rfl, fun _ _ => Or.inl rfl⟩
    wEx ⟨[0], [1], TAState.proved⟩ 0).1 (by decide)

end Yuclid

namespace Yuclid

/-
### Statement normalization (statement/ratio_dist.cpp, statement/cong.cpp)

A `Dist` is a canonically ordered pair of points compared
lexicographically; only its linear order matters here, so distance atoms
are abstracted as elements of a linearly ordered type.  The `NNRat`
ratio of the source (a nonnegative `boost::rational`) is modeled as a
rational number.
-/

/-- The data of `RatioDistEquals` (`rconst`): two distance atoms and a
ratio. -/
structure RatioDistEquals (D : Type) where
  left : D
  right : D
  ratio : ℚ
deriving DecidableEq

/-- `RatioDistEquals::swap`: flip the two distances and invert the
ratio. -/
def RatioDistEquals.swap {D : Type} (p : RatioDistEquals D) :
    RatioDistEquals D :=
  ⟨p.right, p.left, 1 / p.ratio⟩

/-- `RatioDistEquals::normalize`: keep the statement when the left
distance is smaller, otherwise swap. -/
def RatioDistEquals.normalize {D : Type} [LinearOrder D]
    (p : RatioDistEquals D) : RatioDistEquals D :=
  if p.left < p.right then p else p.swap

/-- The data of `DistEqDist` (`cong`): two distance atoms. -/
structure DistEqDist (D : Type) where
  left : D
  right : D
deriving DecidableEq

/-- `DistEqDist::normalize`: order the two distances. -/
def DistEqDist.normalize {D : Type} [LinearOrder D] (p : DistEqDist D) :
    DistEqDist D :=
  if p.left > p.right then ⟨p.right, p.left⟩ else ⟨p.left, p.right⟩

/-- Counterexample to C6 as stated: for `rconst` with the two distance
atoms equal and ratio 2, normalization swaps and inverts the ratio each
time, so normalizing twice differs from normalizing once. -/
theorem C6_counterexample :
    RatioDistEquals.normalize
        (RatioDistEquals.normalize (⟨0, 0, 2⟩ : RatioDistEquals ℕ)) ≠
      RatioDistEquals.normalize (⟨0, 0, 2⟩ : RatioDistEquals ℕ) := by
  with_unfolding_all decide

/-- **C6 (amended).** `cong` normalization is idempotent for every pair
of distance atoms; `rconst` normalization is idempotent whenever the two
distance atoms differ, or the ratio equals 1 — but not in general when
the atoms are equal (see the counterexample).  The ratio is assumed
nonzero because the source ratio is a `boost::rational` whose inversion
throws on zero, where this model returns the junk value `1 / 0 = 0`. -/
theorem C6_normalize_idempotent {D : Type} [LinearOrder D]
    (q : DistEqDist D) (p : RatioDistEquals D) :
    (q.normalize.normalize = q.normalize) ∧
    (p.ratio ≠ 0 → (p.left ≠ p.right ∨ p.ratio = 1) →
      p.normalize.normalize = p.normalize) := by
  constructor
  · rcases q with ⟨a, b⟩
    by_cases hab : a > b
    · have h1 : DistEqDist.normalize ⟨a, b⟩ = ⟨b, a⟩ := by
        rw [DistEqDist.normalize]
        exact if_pos hab
      rw [h1, DistEqDist.normalize]
      exact if_neg (lt_asymm hab)
    · have h1 : DistEqDist.normalize ⟨a, b⟩ = ⟨a, b⟩ := by
        rw [DistEqDist.normalize]
        exact if_neg hab
      rw [h1]
      exact h1
  · intro hr0 hcase
    rcases p with ⟨a, b, r⟩
    by_cases hab : a < b
    · have h1 : RatioDistEquals.normalize ⟨a, b, r⟩ = ⟨a, b, r⟩ := by
        rw [RatioDistEquals.normalize]
        exact if_pos hab
      rw [h1]
      exact h1
    · rcases hcase with hne | hr1
      · have hba : b < a :=
          lt_of_le_of_ne (not_lt.mp hab) (fun h => hne h.symm)
        have h1 : RatioDistEquals.normalize ⟨a, b, r⟩ = ⟨b, a, 1 / r⟩ := by
          rw [RatioDistEquals.normalize, if_neg hab]
          rfl
        have h2 : RatioDistEquals.normalize ⟨b, a, 1 / r⟩ = ⟨b, a, 1 / r⟩ := by
          rw [RatioDistEquals.normalize]
          exact if_pos hba
        rw [h1]
        exact h2
      · have hr1' : r = 1 := hr1
        subst hr1'
        have h1 : RatioDistEquals.normalize ⟨a, b, 1⟩ = ⟨b, a, 1⟩ := by
          rw [RatioDistEquals.normalize, if_neg hab]
          show (⟨b, a, 1 / 1⟩ : RatioDistEquals D) = ⟨b, a, 1⟩
          rw [one_div_one]
        by_cases hba : b < a
        · have h2 : RatioDistEquals.normalize ⟨b, a, 1⟩ = ⟨b, a, 1⟩ := by
            rw [RatioDistEquals.normalize]
            exact if_pos hba
          rw [h1]
          exact h2
        · have heq : a = b := le_antisymm (not_lt.mp hba) (not_lt.mp hab)
          subst heq
          rw [h1]
          have h2 : RatioDistEquals.normalize ⟨a, a, 1⟩ = ⟨a, a, 1⟩ := by
            rw [RatioDistEquals.normalize, if_neg (lt_irrefl a)]
            show (⟨a, a, 1 / 1⟩ : RatioDistEquals D) = ⟨a, a, 1⟩
            rw [one_div_one]
          exact h2

/-- Witness for C6 at a concrete `rconst` statement with distinct
distance atoms. -/
theorem C6_normalize_idempotent_witness :
    RatioDistEquals.normalize
        (RatioDistEquals.normalize (⟨0, 1, 2⟩ : RatioDistEquals ℕ)) =
      RatioDistEquals.normalize (⟨0, 1, 2⟩ : RatioDistEquals ℕ) :=
  (C6_normalize_idempotent ⟨0, 1⟩ ⟨0, 1, 2⟩).2 (by norm_num)
    (Or.inl (by decide))

end Yuclid

namespace Yuclid

/-
### Candidate ratio processing (DDARSolver::process_ratio_squared_dist)

The three per-system loops of `process_ratio_squared_dist`
(`solver/ddar_solver.cpp`) are reified as the list of actions one loop
body performs on one candidate, in order: the known-ratios cache skip,
the `check_numerically` call, the AR-reduction attempt, and the
insertion of the normalized statement.  Candidates are abstract, and the
data-dependent tests (cache membership, numerical check result,
existence of an equation in the domain, and the solvedness of the
reduction) are abstract Boolean parameters.
-/

/-- The observable actions of one candidate-loop body. -/
inductive RSDEvent where
  | cacheSkip
  | numCheck
  | reduceAttempt
  | insertStatement
deriving DecidableEq

/-- The loop body of the `Dist` loop of `process_ratio_squared_dist`
(the `SquaredDist` loop performs exactly the same steps): skip
candidates in the known-pairs cache; call `check_numerically` and drop
the candidate on failure; drop it when it has no equation in the
domain; otherwise reduce against the system and, when solved, insert
and prove the normalized statement. -/
def processRatioCandChecked {C : Type}
    (inCache checkNum hasEq solved : C → Bool) (c : C) : List RSDEvent :=
  if inCache c then [.cacheSkip]
  else
    .numCheck ::
      (if !checkNum c then []
       else if !hasEq c then []
       else .reduceAttempt :: (if solved c then [.insertStatement] else []))

/-- The loop body of the `SinOrDist` loop of
`process_ratio_squared_dist`: skip cached candidates; drop candidates
with no equation; reduce; if the remainder has empty left-hand side and
a nonzero value, insert and prove the reciprocal-ratio statement.  This
loop contains no `check_numerically` call. -/
def processRatioCandSin {C : Type}
    (inCache hasEq remEmpty valNonzero : C → Bool) (c : C) :
    List RSDEvent :=
  if inCache c then [.cacheSkip]
  else if !hasEq c then []
  else
    .reduceAttempt ::
      (if remEmpty c then (if valNonzero c then [.insertStatement] else [])
       else [])

/-- Counterexample to C7 as stated: in the `SinOrDist` loop a candidate
that is not in the cache reaches the AR-reduction attempt and the
insertion with no numerical check at all. -/
theorem C7_counterexample :
    RSDEvent.reduceAttempt ∈ processRatioCandSin (fun _ => false)
        (fun _ => true) (fun _ => true) (fun _ => true) () ∧
    RSDEvent.insertStatement ∈ processRatioCandSin (fun _ => false)
        (fun _ => true) (fun _ => true) (fun _ => true) () ∧
    RSDEvent.numCheck ∉ processRatioCandSin (fun _ => false)
        (fun _ => true) (fun _ => true) (fun _ => true) () := by
  decide

/-- **C7 (amended).** In the `Dist` and `SquaredDist` candidate loops,
every candidate that is not in the known-ratios cache is numerically
checked first, any AR-reduction attempt happens only after a passed
numerical check (immediately after it in the event order), and an
insertion additionally requires the reduction to have solved the
candidate.  In the `SinOrDist` loop, no numerical check is ever
performed. -/
theorem C7_ratio_candidates {C : Type}
    (inCache checkNum hasEq solved : C → Bool) (c : C)
    (inCache₂ hasEq₂ remEmpty₂ valNonzero₂ : C → Bool) (c₂ : C) :
    (inCache c = false →
      (processRatioCandChecked inCache checkNum hasEq solved c).head? =
        some .numCheck) ∧
    (RSDEvent.reduceAttempt ∈
        processRatioCandChecked inCache checkNum hasEq solved c →
      inCache c = false ∧ checkNum c = true ∧ hasEq c = true ∧
      (processRatioCandChecked inCache checkNum hasEq solved c).take 2 =
        [.numCheck, .reduceAttempt]) ∧
    (RSDEvent.insertStatement ∈
        processRatioCandChecked inCache checkNum hasEq solved c →
      checkNum c = true ∧ solved c = true) ∧
    RSDEvent.numCheck ∉
      processRatioCandSin inCache₂ hasEq₂ remEmpty₂ valNonzero₂ c₂ := by
  cases h1 : inCache c <;> cases h2 : checkNum c <;>
    cases h3 : hasEq c <;> cases h4 : solved c <;>
    cases h5 : inCache₂ c₂ <;> cases h6 : hasEq₂ c₂ <;>
    cases h7 : remEmpty₂ c₂ <;> cases h8 : valNonzero₂ c₂ <;>
    simp [processRatioCandChecked, processRatioCandSin, h1, h2, h3, h4,
      h5, h6, h7, h8]

/-- Witness for C7: a concrete non-cached candidate in a checked loop is
numerically checked first. -/
theorem C7_ratio_candidates_witness :
    (processRatioCandChecked (fun _ => false) (fun _ => true)
        (fun _ => true) (fun _ => true) ()).head? = some RSDEvent.numCheck :=
  (C7_ratio_candidates (fun _ => false) (fun _ => true) (fun _ => true)
    (fun _ => true) () (fun _ => false) (fun _ => true) (fun _ => true)
    (fun _ => true) ()).1 rfl

end Yuclid

namespace Yuclid

/-
### Matcher bucketing (matcher.cpp, foreach_bucket)

`EPS` is the double `1e-7` of `numbers/util.hpp`, modeled as the exact
rational `1 / 10 ^ 7`; keys are modeled as rationals.  The walk of
`foreach_bucket` over the key-sorted item vector is reified on the list
of keys: it returns the buckets (each the list of its keys, in order)
together with the number of tolerance-overflow warnings logged.
-/

/-- The numerical tolerance (`EPS = 1E-7` in `numbers/util.hpp`). -/
def EPS : ℚ := 1 / 10 ^ 7

/-- The loop of `foreach_bucket` from the second item on: `startKey` is
the current bucket's first key, `lastKey` the previous item's key, `cur`
the current bucket so far and `warns` the warnings logged so far.  A key
below `lastKey + EPS` stays in the current bucket (logging a warning
when it reaches `startKey + 10 * EPS`); otherwise the current bucket is
closed and a new bucket starts at this key. -/
def bucketWalk (startKey lastKey : ℚ) (cur : List ℚ) (warns : ℕ) :
    List ℚ → List (List ℚ) × ℕ
  | [] => ([cur], warns)
  | k :: rest =>
    if k < lastKey + EPS then
      bucketWalk startKey k (cur ++ [k])
        (if startKey + 10 * EPS ≤ k then warns + 1 else warns) rest
    else
      (cur :: (bucketWalk k k [k] warns rest).1,
        (bucketWalk k k [k] warns rest).2)

/-- `foreach_bucket` on the sorted key list: nothing on an empty input,
otherwise walk from the second key with the first key opening the first
bucket. -/
def foreachBucket : List ℚ → List (List ℚ) × ℕ
  | [] => ([], 0)
  | k :: rest => bucketWalk k k [k] 0 rest

/-- The claim's reading of the walk, stated for comparison: an item
would stay in the current bucket exactly when its key is within `EPS`
of the bucket's **start** key.  This is not the test the source
performs. -/
def bucketWalkByStart (startKey : ℚ) (cur : List ℚ) :
    List ℚ → List (List ℚ)
  | [] => [cur]
  | k :: rest =>
    if k < startKey + EPS then bucketWalkByStart startKey (cur ++ [k]) rest
    else cur :: bucketWalkByStart k [k] rest

/-- `foreach_bucket` as the claim describes it. -/
def foreachBucketByStart : List ℚ → List (List ℚ)
  | [] => []
  | k :: rest => bucketWalkByStart k [k] rest

/-- The warnings a single bucket accounts for: its members that are at
least `10 * EPS` above its first key. -/
def bucketWarnCount : List ℚ → ℕ
  | [] => 0
  | k :: rest => (rest.filter (fun x => decide (k + 10 * EPS ≤ x))).length

/-- Counterexample to C8 as stated: on the sorted keys
`[0, (3/4)EPS, (3/2)EPS]` the source walk produces a single bucket
(each step stays within `EPS` of the *previous* key) and no warning,
while bucketing by distance from the bucket's start key would split
after the second key. -/
theorem C8_counterexample :
    (foreachBucket [0, 3/4 * EPS, 3/2 * EPS]).1 =
        [[0, 3/4 * EPS, 3/2 * EPS]] ∧
    foreachBucketByStart [0, 3/4 * EPS, 3/2 * EPS] =
        [[0, 3/4 * EPS], [3/2 * EPS]] ∧
    (foreachBucket [0, 3/4 * EPS, 3/2 * EPS]).2 = 0 := by
  refine ⟨?_, ?_, ?_⟩ <;>
    norm_num [foreachBucket, bucketWalk, foreachBucketByStart,
      bucketWalkByStart, EPS]

end Yuclid

namespace Yuclid

/-- Appending a key to a bucket adds one warning exactly when the key is
at least `10 * EPS` above the bucket's first key. -/
theorem bucketWarnCount_concat (cur : List ℚ) (s k : ℚ)
    (h : cur.head? = some s) :
    bucketWarnCount (cur ++ [k]) =
      bucketWarnCount cur + (if s + 10 * EPS ≤ k then 1 else 0) := by
  rcases cur with _ | ⟨c₀, ct⟩
  · cases h
  · injection h with h₀
    subst h₀
    show ((ct ++ [k]).filter _).length = (ct.filter _).length + _
    rw [List.filter_append, List.length_append]
    congr 1
    by_cases hk : c₀ + 10 * EPS ≤ k
    · rw [if_pos hk]
      simp [List.filter, hk]
    · rw [if_neg hk]
      simp [List.filter, hk]

/-- Full characterization of the `foreach_bucket` walk, by induction on
the remaining keys: `cur` is the nonempty bucket built so far, with
first key `startKey` and last key `lastKey`; `warns` warnings were
already logged. The walk partitions `cur ++ rest` into nonempty buckets;
inside a bucket every key is below its predecessor plus `EPS`; at every
bucket boundary the new key is at least the previous key plus `EPS`;
and the final warning count grows by exactly the number of keys at
least `10 * EPS` above their bucket's first key. -/
theorem bucketWalk_spec (rest : List ℚ) :
    ∀ (startKey lastKey : ℚ) (cur : List ℚ) (warns : ℕ),
      cur ≠ [] → cur.head? = some startKey → cur.getLast? = some lastKey →
      List.Chain' (fun a k => k < a + EPS) cur →
      (bucketWalk startKey lastKey cur warns rest).1.flatten = cur ++ rest ∧
      (∀ b ∈ (bucketWalk startKey lastKey cur warns rest).1, b ≠ []) ∧
      (∀ b ∈ (bucketWalk startKey lastKey cur warns rest).1,
        List.Chain' (fun a k => k < a + EPS) b) ∧
      List.Chain'
        (fun b₁ b₂ => ∀ x ∈ b₁.getLast?, ∀ y ∈ b₂.head?, x + EPS ≤ y)
        (bucketWalk startKey lastKey cur warns rest).1 ∧
      (bucketWalk startKey lastKey cur warns rest).2 + bucketWarnCount cur =
        warns + ((bucketWalk startKey lastKey cur warns rest).1.map
          bucketWarnCount).sum ∧
      Option.bind (bucketWalk startKey lastKey cur warns rest).1.head?
        List.head? = cur.head? := by
  induction rest with
  | nil =>
    intro startKey lastKey cur warns hne hhead hlast hchain
    simp only [bucketWalk]
    refine ⟨by simp, ?_, ?_, ?_, by simp [Nat.add_comm], by simp⟩
    · intro b hb
      rw [List.mem_singleton] at hb
      rw [hb]
      exact hne
    · intro b hb
      rw [List.mem_singleton] at hb
      rw [hb]
      exact hchain
    · exact List.chain'_singleton cur
  | cons k rest ih =>
    intro startKey lastKey cur warns hne hhead hlast hchain
    by_cases hin : k < lastKey + EPS
    · have hne₂ : cur ++ [k] ≠ [] := by simp
      have hhead₂ : (cur ++ [k]).head? = some startKey := by
        rw [List.head?_append, hhead]
        rfl
      have hlast₂ : (cur ++ [k]).getLast? = some k := List.getLast?_concat cur
      have hchain₂ : List.Chain' (fun a x => x < a + EPS) (cur ++ [k]) := by
        rw [List.chain'_append]
        refine ⟨hchain, List.chain'_singleton k, ?_⟩
        intro x hx y hy
        rw [hlast] at hx
        simp only [Option.mem_def, Option.some.injEq] at hx
        simp only [List.head?_cons, Option.mem_def, Option.some.injEq] at hy
        rw [← hx, ← hy]
        exact hin
      obtain ⟨iA, iB, iC, iD, iE, iF⟩ := ih startKey k (cur ++ [k])
        (if startKey + 10 * EPS ≤ k then warns + 1 else warns)
        hne₂ hhead₂ hlast₂ hchain₂
      have hstep : bucketWalk startKey lastKey cur warns (k :: rest) =
          bucketWalk startKey k (cur ++ [k])
            (if startKey + 10 * EPS ≤ k then warns + 1 else warns) rest := by
        rw [bucketWalk, if_pos hin]
      rw [hstep]
      refine ⟨?_, iB, iC, iD, ?_, ?_⟩
      · rw [iA]
        simp
      · have hcc := bucketWarnCount_concat cur startKey k hhead
        by_cases hk : startKey + 10 * EPS ≤ k
        · rw [if_pos hk] at iE hcc ⊢
          omega
        · rw [if_neg hk] at iE hcc ⊢
          omega
      · rw [iF, hhead₂, hhead]
    · obtain ⟨iA, iB, iC, iD, iE, iF⟩ := ih k k [k] warns (by simp) rfl rfl
        (List.chain'_singleton k)
      have hstep : bucketWalk startKey lastKey cur warns (k :: rest) =
          (cur :: (bucketWalk k k [k] warns rest).1,
            (bucketWalk k k [k] warns rest).2) := by
        rw [bucketWalk, if_neg hin]
      rw [hstep]
      refine ⟨?_, ?_, ?_, ?_, ?_, by simp⟩
      · show cur ++ (bucketWalk k k [k] warns rest).1.flatten = cur ++ k :: rest
        rw [iA]
        rfl
      · intro b hb
        rcases List.mem_cons.mp hb with hb₁ | hb₂
        · rw [hb₁]
          exact hne
        · exact iB b hb₂
      · intro b hb
        rcases List.mem_cons.mp hb with hb₁ | hb₂
        · rw [hb₁]
          exact hchain
        · exact iC b hb₂
      · rw [List.chain'_cons']
        refine ⟨?_, iD⟩
        intro b₁ hb₁ x hx y hy
        rw [hlast] at hx
        simp only [Option.mem_def, Option.some.injEq] at hx hb₁
        have hbind : Option.bind (bucketWalk k k [k] warns rest).1.head?
            List.head? = some k := iF
        rw [hb₁] at hbind
        simp only [Option.some_bind] at hbind
        rw [hbind] at hy
        simp only [Option.mem_def, Option.some.injEq] at hy
        rw [← hx, ← hy]
        exact not_lt.mp hin
      · have hk0 : bucketWarnCount [k] = 0 := rfl
        rw [hk0] at iE
        show (bucketWalk k k [k] warns rest).2 + bucketWarnCount cur =
          warns + (bucketWarnCount cur +
            ((bucketWalk k k [k] warns rest).1.map bucketWarnCount).sum)
        omega

/-- **C8 (amended).** `foreach_bucket` walks the key-sorted items and
keeps an item in the current bucket exactly when its key is within the
tolerance `EPS = 1e-7` of the **previous** item's key (not of the
bucket's start key, as the counterexample shows): the produced buckets
partition the keys in order, within a bucket each key is below its
predecessor plus `EPS`, across a bucket boundary the gap is at least
`EPS`, and the number of logged warnings is exactly the number of keys
at least `10 * EPS` above their own bucket's first key (so a warning is
logged whenever a bucket's keys span at least `10 * EPS` by small
steps). -/
theorem C8_bucketing (l : List ℚ) :
    (foreachBucket l).1.flatten = l ∧
    (∀ b ∈ (foreachBucket l).1, b ≠ []) ∧
    (∀ b ∈ (foreachBucket l).1,
      List.Chain' (fun a k => k < a + EPS) b) ∧
    List.Chain'
      (fun b₁ b₂ => ∀ x ∈ b₁.getLast?, ∀ y ∈ b₂.head?, x + EPS ≤ y)
      (foreachBucket l).1 ∧
    (foreachBucket l).2 =
      ((foreachBucket l).1.map bucketWarnCount).sum := by
  rcases l with _ | ⟨k, rest⟩
  · simp [foreachBucket]
  · obtain ⟨iA, iB, iC, iD, iE, _⟩ := bucketWalk_spec rest k k [k] 0
      (by simp) rfl rfl (List.chain'_singleton k)
    have hfb : foreachBucket (k :: rest) = bucketWalk k k [k] 0 rest := by
      rw [foreachBucket]
    rw [hfb]
    have hk0 : bucketWarnCount [k] = 0 := rfl
    rw [hk0] at iE
    exact ⟨iA, iB, iC, iD, by omega⟩

end Yuclid

namespace Yuclid

/-
### Draining newly solved variables (DDARSolver::process_squared_dist_eq)

The three AR engines are drained in order: `Dist` (Len), `SquaredDist`
(Len²), then `SinOrDist` (Ratio).  Each newly solved variable comes with
the value its echelon row assigns to it (the row's right-hand side
constant); distance variables and squared-distance variables are
abstract, with `SquaredDist(v)` an abstract map on distance variables.
Inserting the synthesized statement and making progress on it is
abstracted by the oracle `proves`; the drain returns the list of
established `SquaredDistEq` facts, or the message of the
`runtime_error` thrown (the variable printed into the zero-squared-
distance message is elided).  For the Ratio engine the value is
`as_nnrat` of the row's root-rational constant, which is zero also when
the constant is not rational.
-/

/-- A newly solved variable of the Ratio (`SinOrDist`) engine: either a
squared sine atom (skipped by the drain) or a squared-distance atom. -/
structure SinOrDistV (S : Type) where
  isSin : Bool
  sq : S
deriving DecidableEq

/-- A synthesized `SquaredDistEq` fact: a squared-distance atom equated
to a rational value. -/
structure SDEq (S : Type) where
  sq : S
  value : ℚ
deriving DecidableEq

/-- Drain the Len engine: a distance solved to a nonzero `r` synthesizes
`SquaredDistEq` of its square with value `r * r`, inserted and proved
(fatal if the proof fails); a zero value is fatal at once. -/
def drainDists {D S : Type} (proves : SDEq S → Bool) (sqOfDist : D → S) :
    List (D × ℚ) → List (SDEq S) → Except String (List (SDEq S))
  | [], acc => .ok acc
  | (v, r) :: rest, acc =>
    if r ≠ 0 then
      if proves ⟨sqOfDist v, r * r⟩ then
        drainDists proves sqOfDist rest (acc ++ [⟨sqOfDist v, r * r⟩])
      else .error "Failed to prove a generated `squared_dist_eq`"
    else .error "Found zero distance"

/-- Drain the Len² engine: the value is used directly; zero is fatal. -/
def drainSqs {S : Type} (proves : SDEq S → Bool) :
    List (S × ℚ) → List (SDEq S) → Except String (List (SDEq S))
  | [], acc => .ok acc
  | (v, r) :: rest, acc =>
    if r ≠ 0 then
      if proves ⟨v, r⟩ then drainSqs proves rest (acc ++ [⟨v, r⟩])
      else .error "Failed to prove a generated `squared_dist_eq`"
    else .error "Found zero squared distance"

/-- Drain the Ratio engine: sine atoms are skipped, and so are zero
values — there is no error branch in this loop. -/
def drainSins {S : Type} (proves : SDEq S → Bool) :
    List (SinOrDistV S × ℚ) → List (SDEq S) → Except String (List (SDEq S))
  | [], acc => .ok acc
  | (v, r) :: rest, acc =>
    if v.isSin then drainSins proves rest acc
    else if r ≠ 0 then
      if proves ⟨v.sq, r⟩ then drainSins proves rest (acc ++ [⟨v.sq, r⟩])
      else .error "Failed to prove a generated `squared_dist_eq`"
    else drainSins proves rest acc

/-- `DDARSolver::process_squared_dist_eq`: drain the three engines in
order, stopping at the first error. -/
def processSquaredDistEq {D S : Type} (proves : SDEq S → Bool)
    (sqOfDist : D → S) (dists : List (D × ℚ)) (sqs : List (S × ℚ))
    (sins : List (SinOrDistV S × ℚ)) : Except String (List (SDEq S)) :=
  match drainDists proves sqOfDist dists [] with
  | .error e => .error e
  | .ok l₁ =>
    match drainSqs proves sqs l₁ with
    | .error e => .error e
    | .ok l₂ => drainSins proves sins l₂

/-- When every Len value is nonzero and every insertion proves, the Len
drain appends one squared fact per solved distance. -/
theorem drainDists_ok {D S : Type} (proves : SDEq S → Bool)
    (sqOfDist : D → S) (hp : ∀ s, proves s = true) :
    ∀ (l : List (D × ℚ)), (∀ t ∈ l, t.2 ≠ 0) → ∀ (acc : List (SDEq S)),
      drainDists proves sqOfDist l acc =
        .ok (acc ++ l.map fun t => ⟨sqOfDist t.1, t.2 * t.2⟩)
  | [], _, acc => by simp [drainDists]
  | (v, r) :: rest, h, acc => by
    have hr : r ≠ 0 := h (v, r) (List.mem_cons_self _ _)
    rw [drainDists, if_pos hr, if_pos (hp _),
      drainDists_ok proves sqOfDist hp rest
        (fun t ht => h t (List.mem_cons_of_mem _ ht)) _]
    simp

/-- A zero Len value makes the whole drain fail with "Found zero
distance" (when all insertions prove). -/
theorem drainDists_err {D S : Type} (proves : SDEq S → Bool)
    (sqOfDist : D → S) (hp : ∀ s, proves s = true) :
    ∀ (l : List (D × ℚ)), (∃ t ∈ l, t.2 = 0) → ∀ (acc : List (SDEq S)),
      drainDists proves sqOfDist l acc = .error "Found zero distance"
  | [], h, _ => absurd h (by simp)
  | (v, r) :: rest, h, acc => by
    by_cases hr : r = 0
    · rw [drainDists, if_neg (not_not_intro hr)]
    · have h₂ : ∃ t ∈ rest, t.2 = 0 := by
        rcases h with ⟨t, ht, ht0⟩
        rcases List.mem_cons.mp ht with rfl | htr
        · exact absurd ht0 hr
        · exact ⟨t, htr, ht0⟩
      rw [drainDists, if_pos hr, if_pos (hp _)]
      exact drainDists_err proves sqOfDist hp rest h₂ _

/-- When every Len² value is nonzero and every insertion proves, the
Len² drain appends one fact per solved variable. -/
theorem drainSqs_ok {S : Type} (proves : SDEq S → Bool)
    (hp : ∀ s, proves s = true) :
    ∀ (l : List (S × ℚ)), (∀ t ∈ l, t.2 ≠ 0) → ∀ (acc : List (SDEq S)),
      drainSqs proves l acc = .ok (acc ++ l.map fun t => ⟨t.1, t.2⟩)
  | [], _, acc => by simp [drainSqs]
  | (v, r) :: rest, h, acc => by
    have hr : r ≠ 0 := h (v, r) (List.mem_cons_self _ _)
    rw [drainSqs, if_pos hr, if_pos (hp _),
      drainSqs_ok proves hp rest
        (fun t ht => h t (List.mem_cons_of_mem _ ht)) _]
    simp

/-- A zero Len² value makes the drain fail with "Found zero squared
distance" (when all insertions prove). -/
theorem drainSqs_err {S : Type} (proves : SDEq S → Bool)
    (hp : ∀ s, proves s = true) :
    ∀ (l : List (S × ℚ)), (∃ t ∈ l, t.2 = 0) → ∀ (acc : List (SDEq S)),
      drainSqs proves l acc = .error "Found zero squared distance"
  | [], h, _ => absurd h (by simp)
  | (v, r) :: rest, h, acc => by
    by_cases hr : r = 0
    · rw [drainSqs, if_neg (not_not_intro hr)]
    · have h₂ : ∃ t ∈ rest, t.2 = 0 := by
        rcases h with ⟨t, ht, ht0⟩
        rcases List.mem_cons.mp ht with rfl | htr
        · exact absurd ht0 hr
        · exact ⟨t, htr, ht0⟩
      rw [drainSqs, if_pos hr, if_pos (hp _)]
      exact drainSqs_err proves hp rest h₂ _

/-- The Ratio drain never fails when insertions prove: it keeps exactly
the non-sine variables with nonzero values, silently skipping the
rest. -/
theorem drainSins_ok {S : Type} (proves : SDEq S → Bool)
    (hp : ∀ s, proves s = true) :
    ∀ (l : List (SinOrDistV S × ℚ)) (acc : List (SDEq S)),
      drainSins proves l acc =
        .ok (acc ++ (l.filter fun t => !t.1.isSin && decide (t.2 ≠ 0)).map
          (fun t => ⟨t.1.sq, t.2⟩))
  | [], acc => by simp [drainSins]
  | (v, r) :: rest, acc => by
    by_cases hs : v.isSin
    · rw [drainSins, if_pos hs, drainSins_ok proves hp rest acc]
      simp [List.filter_cons, hs]
    · by_cases hr : r ≠ 0
      · have hrec := drainSins_ok proves hp rest
          (acc ++ [({ sq := v.sq, value := r } : SDEq S)])
        rw [drainSins, if_neg hs, if_pos hr, if_pos (hp _), hrec]
        simp [List.filter_cons, hs, hr]
      · rw [drainSins, if_neg hs, if_neg hr,
          drainSins_ok proves hp rest acc]
        simp only [not_not] at hr
        simp [List.filter_cons, hs, hr]

end Yuclid

namespace Yuclid

/-- Counterexample to C9 as stated: in the Ratio engine a (non-sine)
variable solved to the value zero raises no error at all — the drain
skips it silently and succeeds. -/
theorem C9_counterexample :
    processSquaredDistEq (fun _ => true) (fun n : ℕ => n) [] []
      [(⟨false, 0⟩, 0)] = .ok [] := by
  with_unfolding_all decide

/-- **C9 (amended).** Draining the newly solved variables: when every
Len and Len² value is nonzero and every synthesized statement proves,
the drain succeeds and establishes one `SquaredDistEq` per solved Len
variable (with the squared value), per solved Len² variable (with the
value itself), and per solved non-sine Ratio variable with nonzero
value — sine atoms and zero Ratio values are silently skipped.  A zero
value is fatal only in the Len engine ("Found zero distance") and the
Len² engine ("Found zero squared distance"). -/
theorem C9_squared_dist_drain {D S : Type} (proves : SDEq S → Bool)
    (sqOfDist : D → S) (dists : List (D × ℚ)) (sqs : List (S × ℚ))
    (sins : List (SinOrDistV S × ℚ)) :
    ((∀ t ∈ dists, t.2 ≠ (0 : ℚ)) → (∀ t ∈ sqs, t.2 ≠ (0 : ℚ)) →
      (∀ s, proves s = true) →
      processSquaredDistEq proves sqOfDist dists sqs sins =
        .ok ((dists.map fun t => ⟨sqOfDist t.1, t.2 * t.2⟩) ++
          (sqs.map fun t => ⟨t.1, t.2⟩) ++
          (sins.filter fun t => !t.1.isSin && decide (t.2 ≠ (0 : ℚ))).map
            (fun t => ⟨t.1.sq, t.2⟩))) ∧
    ((∃ t ∈ dists, t.2 = (0 : ℚ)) → (∀ s, proves s = true) →
      processSquaredDistEq proves sqOfDist dists sqs sins =
        .error "Found zero distance") ∧
    ((∀ t ∈ dists, t.2 ≠ (0 : ℚ)) → (∃ t ∈ sqs, t.2 = (0 : ℚ)) →
      (∀ s, proves s = true) →
      processSquaredDistEq proves sqOfDist dists sqs sins =
        .error "Found zero squared distance") := by
  refine ⟨?_, ?_, ?_⟩
  · intro hD hS hp
    simp only [processSquaredDistEq,
      drainDists_ok proves sqOfDist hp dists hD,
      drainSqs_ok proves hp sqs hS,
      drainSins_ok proves hp sins]
    simp
  · intro hD hp
    simp only [processSquaredDistEq,
      drainDists_err proves sqOfDist hp dists hD]
  · intro hD hS hp
    simp only [processSquaredDistEq,
      drainDists_ok proves sqOfDist hp dists hD,
      drainSqs_err proves hp sqs hS]

/-- Witness for C9 at one solved distance of value 2. -/
theorem C9_squared_dist_drain_witness :
    processSquaredDistEq (fun _ => true) (fun n : ℕ => n)
      [((0 : ℕ), (2 : ℚ))] [] [] = .ok [⟨0, 2 * 2⟩] := by
  rw [(C9_squared_dist_drain (fun _ => true) (fun n : ℕ => n)
    [((0 : ℕ), (2 : ℚ))] [] []).1 (by simp) (by simp) (fun _ => rfl)]
  simp

end Yuclid

namespace Yuclid

/-
### The driver (DDARSolver::run, run_level, print_json)

The level work is modeled over an abstract solver core: `estab` counts
the established statements (`m_established_statements.size()`),
`levelCore` performs one level's work on the core (advancing the
theorem applications bounded by the level's max point, and the two
AR-drain passes), and `goalsProgress` / `goalsAllProved` model the
goal pass of `run_level`.  The Bool alongside the core is `m_solved`.
In the goal-free branch of `run` the max-point bound changes per outer
iteration, so the per-level work takes the point there.
-/

/-- The solver state the driver reads and writes: the abstract core and
the `m_solved` flag. -/
structure DriverState (σ : Type) where
  core : σ
  solved : Bool

/-- `DDARSolver::run_level`: do the level work on the core; if the
problem has goals, make progress on the unproved ones and assign
`m_solved` to whether all goals are now proved; return whether this
level established new statements. -/
def runLevel {σ : Type} (estab : σ → ℕ) (levelCore goalsProgress : σ → σ)
    (goalsAllProved : σ → Bool) (goalsEmpty : Bool) (s : DriverState σ) :
    DriverState σ × Bool :=
  if goalsEmpty then
    (⟨levelCore s.core, s.solved⟩,
      estab s.core < estab (levelCore s.core))
  else
    (⟨goalsProgress (levelCore s.core),
        goalsAllProved (goalsProgress (levelCore s.core))⟩,
      estab s.core < estab (goalsProgress (levelCore s.core)))

/-- The inner loop of the goal-free branch of `run`, for one max-point
bound: up to `maxLevels` levels, stopping after a level that
establishes nothing new. -/
def runFreeLoop {σ : Type} (estab : σ → ℕ) (levelCore goalsProgress : σ → σ)
    (goalsAllProved : σ → Bool) : ℕ → DriverState σ → DriverState σ
  | 0, s => s
  | n + 1, s =>
    if (runLevel estab levelCore goalsProgress goalsAllProved true s).2 then
      runFreeLoop estab levelCore goalsProgress goalsAllProved n
        (runLevel estab levelCore goalsProgress goalsAllProved true s).1
    else (runLevel estab levelCore goalsProgress goalsAllProved true s).1

/-- The goal-directed loop of `run`: up to `maxLevels` levels, stopping
after a level that establishes nothing new, or once the problem is
solved. -/
def runGoalLoop {σ : Type} (estab : σ → ℕ) (levelCore goalsProgress : σ → σ)
    (goalsAllProved : σ → Bool) : ℕ → DriverState σ → DriverState σ
  | 0, s => s
  | n + 1, s =>
    if !(runLevel estab levelCore goalsProgress goalsAllProved false s).2 then
      (runLevel estab levelCore goalsProgress goalsAllProved false s).1
    else if (runLevel estab levelCore goalsProgress goalsAllProved
        false s).1.solved then
      (runLevel estab levelCore goalsProgress goalsAllProved false s).1
    else
      runGoalLoop estab levelCore goalsProgress goalsAllProved n
        (runLevel estab levelCore goalsProgress goalsAllProved false s).1

/-- `DDARSolver::run`: with no goals, saturate for every max-point bound
in turn and then set `m_solved := true` unconditionally; with goals,
run the goal-directed loop at the last point's bound.  Returns
`m_solved` together with the final state. -/
def run {σ : Type} (estab : σ → ℕ) (levelCorePt : ℕ → σ → σ)
    (goalsProgress : σ → σ) (goalsAllProved : σ → Bool) (points : List ℕ)
    (maxPt maxLevels : ℕ) (goalsEmpty : Bool) (s : DriverState σ) :
    Bool × DriverState σ :=
  if goalsEmpty then
    (true,
      ⟨(points.foldl (fun c p => runFreeLoop estab (levelCorePt p)
          goalsProgress goalsAllProved maxLevels c) s).core, true⟩)
  else
    ((runGoalLoop estab (levelCorePt maxPt) goalsProgress goalsAllProved
        maxLevels s).solved,
      runGoalLoop estab (levelCorePt maxPt) goalsProgress goalsAllProved
        maxLevels s)

/-- The status field of `DDARSolver::print_json`. -/
def statusString (solved : Bool) : String :=
  if solved then "solved" else "saturated"

/-- **C10.** On a problem with an empty goal list, `run` returns `true`
and the reported status is "solved" regardless of what the saturation
loops derived, because `m_solved` is assigned `true` unconditionally
after them; consequently the status "saturated" can only be reported
when the problem has at least one goal. -/
theorem C10_run_status {σ : Type} (estab : σ → ℕ) (levelCorePt : ℕ → σ → σ)
    (goalsProgress : σ → σ) (goalsAllProved : σ → Bool) (points : List ℕ)
    (maxPt maxLevels : ℕ) (s : DriverState σ) :
    ((run estab levelCorePt goalsProgress goalsAllProved points maxPt
        maxLevels true s).1 = true ∧
      statusString (run estab levelCorePt goalsProgress goalsAllProved
        points maxPt maxLevels true s).2.solved = "solved") ∧
    (∀ goalsEmpty : Bool,
      statusString (run estab levelCorePt goalsProgress goalsAllProved
          points maxPt maxLevels goalsEmpty s).2.solved = "saturated" →
      goalsEmpty = false) := by
  refine ⟨⟨?_, ?_⟩, ?_⟩
  · rw [run, if_pos rfl]
  · rw [run, if_pos rfl]
    rfl
  · intro gE h
    cases gE
    · rfl
    · rw [run, if_pos rfl] at h
      simp [statusString] at h

end Yuclid
